/-
Verification of the task-tracker dependency-graph engine and scheduler.

The repository contains several ports of the same task tracker
(tt-kimi, tt-kimi-dual, tt-glm, tt-glm-dual, tt-minimax, tt-minimax-dual).
This file gives a shallow embedding of the pure core of the cited
implementations: the data model, the order allocator
(calculate_midpoint, reindex_orders), the graph engine (Kahn topological
sort with a (manual_order, task_id) min-heap, DFS cycle detection) and the
task lifecycle state machine (start/stop/complete), together with theorems
about them.

Modelling conventions:
  * `manual_order` (an `f64` in the source) is modelled as `Rat`; the
    arithmetic on it in the embedded operations is exact.
  * timestamps are modelled as `Nat`, with the current time (`Utc::now()`
    in the source) passed as an explicit `now` argument;
  * the SQLite store is modelled as an in-memory snapshot `Db` holding the
    task list and the dependency-edge list; operations that mutate the
    store return the new snapshot together with their `Result`, and the
    old snapshot on an error path (the source returns before any UPDATE);
  * a Rust `HashMap` built by inserting entries in iteration order is
    modelled by `List.find?` on the reversed entry list (a later insert
    for the same key wins);
  * unbounded Rust recursion/loops are modelled with an explicit fuel that
    is provably sufficient for the runs the theorems talk about.
-/
import Mathlib

set_option linter.unusedVariables false

namespace TT

/-- Task lifecycle status (closed enum, decoded at the store boundary). -/
inductive Status where
  | pending
  | inProgress
  | completed
  | blocked
deriving DecidableEq, Repr

/-- In-memory task snapshot, as stored by every port
(`id, title, description, dod, status, manual_order, created_at,
started_at, completed_at, last_touched_at`).  `description` is dropped as
no modelled operation reads it. -/
structure Task where
  id : Int
  title : String
  dod : Option String
  status : Status
  manual_order : Rat
  created_at : Nat
  started_at : Option Nat
  completed_at : Option Nat
  last_touched_at : Nat
deriving DecidableEq, Repr

/-- Closed enumeration of the core's error kinds (union of the cited
ports' error enums, restricted to the modelled operations). -/
inductive TaskError where
  | taskNotFound (id : Int)
  | anotherTaskActive (id : Int)
  | unmetDependencies (id : Int) (deps : List Int)
  | noDod (id : Int)
  | noActiveTask
  | taskIsBlocked (id : Int)
  | taskAlreadyCompleted (id : Int)
  | floatPrecisionExhausted
  | cycleDetected
  | noTarget
deriving DecidableEq, Repr

/-- tt-kimi `graph.rs::calculate_midpoint` (identical in tt-minimax
`graph/sort.rs` and tt-kimi-dual `core/graph.rs`): `mid = (a + b) / 2`,
error when the computed midpoint collides with either bound. -/
def calculate_midpoint (a b : Rat) : Except TaskError Rat :=
  let mid := (a + b) / 2
  if mid = a ∨ mid = b then Except.error TaskError.floatPrecisionExhausted
  else Except.ok mid

/-- tt-kimi `graph.rs::reindex_orders` (identical in tt-kimi-dual
`core/graph.rs`): the i-th task of the given list is assigned order
`(i + 1) * 10.0`. -/
def reindex_orders (tasks : List Task) : List (Int × Rat) :=
  tasks.enum.map (fun p => (p.2.id, ((p.1 : Rat) + 1) * 10))

/-- The caller of `reindex_orders` (`TaskTracker::reindex`) persists the
returned mapping: every task whose id occurs in the mapping gets the
mapped `manual_order`. -/
def update_manual_orders (tasks : List Task) (m : List (Int × Rat)) : List Task :=
  tasks.map (fun t =>
    match m.lookup t.id with
    | some o => { t with manual_order := o }
    | none => t)

/-- C7: `calculate_midpoint` returns the computed midpoint `(a + b) / 2`,
and fails with `FloatPrecisionExhausted` exactly when that computed
midpoint equals the lower or the upper bound; it never returns a value
equal to either bound.  (The midpoint computation itself is modelled with
exact arithmetic; the guard is embedded verbatim, so the equivalence is
about whatever value the midpoint expression takes.) -/
theorem C7_between_guard (a b : Rat) :
    (calculate_midpoint a b = Except.error TaskError.floatPrecisionExhausted ↔
      ((a + b) / 2 = a ∨ (a + b) / 2 = b)) ∧
    (∀ v, calculate_midpoint a b = Except.ok v →
      v = (a + b) / 2 ∧ v ≠ a ∧ v ≠ b) := by
  constructor
  · unfold calculate_midpoint
    by_cases h : (a + b) / 2 = a ∨ (a + b) / 2 = b <;> simp [h]
  · intro v hv
    unfold calculate_midpoint at hv
    by_cases h : (a + b) / 2 = a ∨ (a + b) / 2 = b
    · simp [h] at hv
    · simp [h] at hv
      push_neg at h
      exact ⟨hv.symm, hv ▸ h.1, hv ▸ h.2⟩

/-- `reindex_orders` only reads the ids of the given tasks, in order. -/
theorem reindex_orders_eq_of_ids (l1 l2 : List Task)
    (h : l1.map Task.id = l2.map Task.id) :
    reindex_orders l1 = reindex_orders l2 := by
  have key : ∀ l : List Task, reindex_orders l =
      (l.map Task.id).enum.map (fun p => (p.2, ((p.1 : Rat) + 1) * 10)) := by
    intro l
    simp [reindex_orders, List.enum_map, List.map_map, Function.comp_def, Prod.map]
  rw [key, key, h]

/-- `update_manual_orders` never changes a task's id. -/
theorem update_manual_orders_ids (tasks : List Task) (m : List (Int × Rat)) :
    (update_manual_orders tasks m).map Task.id = tasks.map Task.id := by
  simp only [update_manual_orders, List.map_map]
  apply List.map_congr_left
  intro x _
  cases h : m.lookup x.id <;> simp [h]

/-- C9: `reindex_orders` assigns the i-th task (in the given list order)
the order `10 * (i + 1)`, keeps the task ids in the given relative order,
and is idempotent: reindexing the list updated with its own output yields
the same mapping. -/
theorem C9_reindex_clean_and_idempotent (tasks : List Task) (i : Nat) (t : Task)
    (hget : tasks[i]? = some t) :
    (reindex_orders tasks)[i]? = some (t.id, ((i : Rat) + 1) * 10) ∧
    (reindex_orders tasks).map Prod.fst = tasks.map Task.id ∧
    reindex_orders (update_manual_orders tasks (reindex_orders tasks)) =
      reindex_orders tasks := by
  refine ⟨?_, ?_, ?_⟩
  · simp [reindex_orders, List.getElem?_map, List.getElem?_enum, hget]
  · simp only [reindex_orders, List.map_map]
    have hcomp : (Prod.fst ∘ fun p : Nat × Task => (p.2.id, ((p.1 : Rat) + 1) * 10)) =
        (Task.id ∘ Prod.snd) := rfl
    rw [hcomp, ← List.map_map, List.enum_map_snd]
  · exact reindex_orders_eq_of_ids _ _
      (update_manual_orders_ids tasks (reindex_orders tasks))

/-- Witness for C9 at a concrete input. -/
def wtask (i : Int) (o : Rat) (s : Status) : Task :=
  { id := i, title := "", dod := some "d", status := s, manual_order := o,
    created_at := 0, started_at := none, completed_at := none, last_touched_at := 0 }

theorem C9_reindex_witness :
    ([wtask 5 15 Status.pending, wtask 1 3 Status.pending][1]? =
        some (wtask 1 3 Status.pending)) ∧
    ((reindex_orders [wtask 5 15 Status.pending, wtask 1 3 Status.pending])[1]? =
        some ((1 : Int), ((1 : Rat) + 1) * 10) ∧
      (reindex_orders [wtask 5 15 Status.pending, wtask 1 3 Status.pending]).map Prod.fst =
        [wtask 5 15 Status.pending, wtask 1 3 Status.pending].map Task.id ∧
      reindex_orders (update_manual_orders
          [wtask 5 15 Status.pending, wtask 1 3 Status.pending]
          (reindex_orders [wtask 5 15 Status.pending, wtask 1 3 Status.pending])) =
        reindex_orders [wtask 5 15 Status.pending, wtask 1 3 Status.pending]) :=
  ⟨by decide,
   C9_reindex_clean_and_idempotent
     [wtask 5 15 Status.pending, wtask 1 3 Status.pending] 1
     (wtask 1 3 Status.pending) (by decide)⟩

/-! ## Store snapshot and the task lifecycle state machine (tt-kimi core.rs / db.rs) -/

/-- In-memory snapshot of the store: the `tasks` table and the
`dependencies` table (`(task_id, depends_on)` rows, in insertion order). -/
structure Db where
  tasks : List Task
  deps : List (Int × Int)
deriving DecidableEq, Repr

/-- `Database::get_task`: `SELECT ... FROM tasks WHERE id = ?` (id is the
primary key; modelled as the first row with that id). -/
def get_task (db : Db) (id : Int) : Option Task :=
  db.tasks.find? (fun t => t.id == id)

/-- `Database::get_active_task`: `SELECT ... WHERE status = 'in_progress'
LIMIT 1`. -/
def get_active_task (db : Db) : Option Task :=
  db.tasks.find? (fun t => t.status == Status.inProgress)

/-- The per-row effect of `Database::set_task_status`: the new status
and, depending on it, `started_at` (InProgress) or `completed_at`
(Completed); `last_touched_at` is always updated. -/
def apply_status (s : Status) (now : Nat) (t : Task) : Task :=
  match s with
  | Status.inProgress =>
      { t with status := s, started_at := some now, last_touched_at := now }
  | Status.completed =>
      { t with status := s, completed_at := some now, last_touched_at := now }
  | _ => { t with status := s, last_touched_at := now }

/-- `Database::set_task_status`: applies `apply_status` to the row with
the given id. -/
def set_task_status (db : Db) (id : Int) (s : Status) (now : Nat) : Db :=
  { db with tasks := db.tasks.map (fun t =>
      if t.id == id then apply_status s now t else t) }

/-- `Database::get_dependency_statuses`: the `(depends_on, status)` rows
for the given task, joining the dependency rows with the tasks table (a
dependency row whose target task does not exist produces no row). -/
def get_dependency_statuses (db : Db) (id : Int) : List (Int × Status) :=
  db.deps.filterMap (fun e =>
    if e.1 == id then (get_task db e.2).map (fun t => (e.2, t.status)) else none)

/-- Direct dependency ids of a task, straight from the edge table. -/
def deps_of (db : Db) (id : Int) : List Int :=
  (db.deps.filter (fun e => e.1 == id)).map (fun e => e.2)

/-- Dependency-and-update tail of `TaskTracker::start_task` (the part
after the status and single-active guards). -/
def start_task_go (db : Db) (id : Int) (now : Nat) : Except TaskError Task × Db :=
  let unmet := ((get_dependency_statuses db id).filter
      (fun d => !(d.2 == Status.completed))).map (fun d => d.1)
  if !unmet.isEmpty then (Except.error (TaskError.unmetDependencies id unmet), db)
  else
    let db2 := set_task_status db id Status.inProgress now
    (match get_task db2 id with
     | some t => Except.ok t
     | none => Except.error (TaskError.taskNotFound id), db2)

/-- `TaskTracker::start_task` (tt-kimi core.rs): idempotent on an
InProgress task; rejects Blocked and Completed tasks; rejects when a
different task is active; rejects unmet dependencies; otherwise moves the
task to InProgress. -/
def start_task (db : Db) (id : Int) (now : Nat) : Except TaskError Task × Db :=
  match get_task db id with
  | none => (Except.error (TaskError.taskNotFound id), db)
  | some task =>
    if task.status == Status.inProgress then (Except.ok task, db)
    else if task.status == Status.blocked then
      (Except.error (TaskError.taskIsBlocked id), db)
    else if task.status == Status.completed then
      (Except.error (TaskError.taskAlreadyCompleted id), db)
    else
      match get_active_task db with
      | some active =>
          if active.id != id then (Except.error (TaskError.anotherTaskActive active.id), db)
          else start_task_go db id now
      | none => start_task_go db id now

/-- `TaskTracker::stop_task` (tt-kimi core.rs): moves the currently
active task back to Pending; fails with `NoActiveTask` when none is
InProgress. -/
def stop_task (db : Db) (now : Nat) : Except TaskError Task × Db :=
  match get_active_task db with
  | none => (Except.error TaskError.noActiveTask, db)
  | some active =>
    let db2 := set_task_status db active.id Status.pending now
    (match get_task db2 active.id with
     | some t => Except.ok t
     | none => Except.error (TaskError.taskNotFound active.id), db2)

/-- Rust `str::trim`: strip leading and trailing whitespace (modelled on
the character list; `String.trim` itself is not kernel-reducible). -/
def rust_trim (l : List Char) : List Char :=
  ((l.dropWhile Char.isWhitespace).reverse.dropWhile Char.isWhitespace).reverse

/-- Rust `s.trim().is_empty()`. -/
def trim_is_empty (s : String) : Bool :=
  (rust_trim s.data).isEmpty

/-- `TaskTracker::complete_task` (tt-kimi core.rs): completes the
currently active task; fails with `NoActiveTask` when none is InProgress
and with `NoDod` when the task's `dod`, trimmed, is empty. -/
def complete_task (db : Db) (now : Nat) : Except TaskError Task × Db :=
  match get_active_task db with
  | none => (Except.error TaskError.noActiveTask, db)
  | some active =>
    match get_task db active.id with
    | none => (Except.error (TaskError.taskNotFound active.id), db)
    | some task =>
      if (task.dod.map (fun s => trim_is_empty s)).getD true then
        (Except.error (TaskError.noDod active.id), db)
      else
        let db2 := set_task_status db active.id Status.completed now
        (match get_task db2 active.id with
         | some t => Except.ok t
         | none => Except.error (TaskError.taskNotFound active.id), db2)

/-- `apply_status` never changes the task id. -/
theorem apply_status_id (s : Status) (now : Nat) (t : Task) :
    (apply_status s now t).id = t.id := by
  cases s <;> rfl

/-- Updating a status via `set_task_status` changes no task id, so looking
the task up again returns the updated row. -/
theorem get_task_set_task_status (db : Db) (id : Int) (s : Status) (now : Nat) :
    get_task (set_task_status db id s now) id =
      (get_task db id).map (apply_status s now) := by
  unfold get_task set_task_status
  simp only
  induction db.tasks with
  | nil => rfl
  | cons t l ih =>
    by_cases h : t.id = id
    · have hup : (if t.id == id then apply_status s now t else t) =
          apply_status s now t := by simp [h]
      simp only [List.map_cons, hup]
      rw [List.find?_cons_of_pos _ (by simp [apply_status_id, h]),
        List.find?_cons_of_pos _ (by simp [h])]
      rfl
    · have hup : (if t.id == id then apply_status s now t else t) = t := by simp [h]
      simp only [List.map_cons, hup]
      rw [List.find?_cons_of_neg _ (by simp [h]), List.find?_cons_of_neg _ (by simp [h])]
      exact ih

/-- List-level form of `unmet_eq_filter` below. -/
theorem unmet_eq_filter_aux (db : Db) (id : Int) (l : List (Int × Int))
    (hdeps : ∀ d ∈ (l.filter (fun e => e.1 == id)).map (fun e => e.2),
      (get_task db d).isSome) :
    ((l.filterMap (fun e =>
        if e.1 == id then (get_task db e.2).map (fun t => (e.2, t.status)) else none)).filter
        (fun d => !(d.2 == Status.completed))).map (fun d => d.1) =
      ((l.filter (fun e => e.1 == id)).map (fun e => e.2)).filter
        (fun d => !((get_task db d).map Task.status == some Status.completed)) := by
  induction l with
  | nil => simp
  | cons e l ih =>
    by_cases he : e.1 = id
    · have hd : (get_task db e.2).isSome := by
        apply hdeps
        simp [he]
      cases hget : get_task db e.2 with
      | none => rw [hget] at hd; simp at hd
      | some t =>
        have ih2 := ih (fun d hm => hdeps d (by simp at hm ⊢; tauto))
        by_cases hs : t.status = Status.completed
        · simp [he, hget, hs]
          simpa using ih2
        · simp [he, hget, hs]
          simpa using ih2
    · have ih2 := ih (fun d hm => hdeps d (by simp at hm ⊢; tauto))
      simp [he]
      simpa using ih2

/-- The list of not-Completed direct dependencies computed by
`start_task` from the joined rows equals the filter of the raw dependency
ids by status, provided every dependency id resolves to a task. -/
theorem unmet_eq_filter (db : Db) (id : Int)
    (hdeps : ∀ d ∈ deps_of db id, (get_task db d).isSome) :
    ((get_dependency_statuses db id).filter
        (fun d => !(d.2 == Status.completed))).map (fun d => d.1) =
      (deps_of db id).filter
        (fun d => !((get_task db d).map Task.status == some Status.completed)) := by
  have h := unmet_eq_filter_aux db id db.deps ?_
  · exact h
  · intro d hm
    exact hdeps d hm

/-- C5: starting a Pending task fails with `AnotherTaskActive(a.id)` when
a different task `a` is InProgress; with no active task it fails with
`UnmetDependencies` listing exactly the direct dependency ids whose
status is not Completed, and succeeds otherwise, setting the task's
status to InProgress and its `started_at` timestamp.  The store is not
modified on either error. -/
theorem C5_start_task_rules (db : Db) (id : Int) (now : Nat) (task : Task)
    (hfind : get_task db id = some task) (hp : task.status = Status.pending)
    (hdeps : ∀ d ∈ deps_of db id, (get_task db d).isSome) :
    (∀ a, get_active_task db = some a → a.id ≠ id →
      start_task db id now = (Except.error (TaskError.anotherTaskActive a.id), db)) ∧
    (get_active_task db = none →
      ∀ unmet, unmet = (deps_of db id).filter
          (fun d => !((get_task db d).map Task.status == some Status.completed)) →
      (unmet ≠ [] →
        start_task db id now = (Except.error (TaskError.unmetDependencies id unmet), db)) ∧
      (unmet = [] →
        ∃ t2, start_task db id now =
            (Except.ok t2, set_task_status db id Status.inProgress now) ∧
          t2.id = task.id ∧ t2.status = Status.inProgress ∧
          t2.started_at = some now)) := by
  have hfind2 : db.tasks.find? (fun t => t.id == id) = some task := hfind
  have hid := List.find?_some hfind2
  have hgo : ∀ unmet, unmet = (deps_of db id).filter
      (fun d => !((get_task db d).map Task.status == some Status.completed)) →
      (unmet ≠ [] →
        start_task_go db id now = (Except.error (TaskError.unmetDependencies id unmet), db)) ∧
      (unmet = [] →
        ∃ t2, start_task_go db id now =
            (Except.ok t2, set_task_status db id Status.inProgress now) ∧
          t2.id = task.id ∧ t2.status = Status.inProgress ∧
          t2.started_at = some now) := by
    intro unmet hu
    have hun : ((get_dependency_statuses db id).filter
        (fun d => !(d.2 == Status.completed))).map (fun d => d.1) = unmet :=
      (hu ▸ unmet_eq_filter db id hdeps :)
    constructor
    · intro hne
      unfold start_task_go
      rw [hun]
      have hemp : unmet.isEmpty = false := by
        cases unmet with
        | nil => exact absurd rfl hne
        | cons a l => rfl
      simp [hemp]
    · intro hnil
      unfold start_task_go
      rw [hun, hnil]
      have hset := get_task_set_task_status db id Status.inProgress now
      rw [hfind] at hset
      refine ⟨apply_status Status.inProgress now task, ?_, ?_, ?_, ?_⟩
      · simp [hset]
      · exact apply_status_id Status.inProgress now task
      · rfl
      · rfl
  constructor
  · intro a hact hne
    unfold start_task
    rw [hfind]
    have hane : (a.id != id) = true := by simpa using hne
    simp [hp, hact, hane]
  · intro hact unmet hu
    have h := hgo unmet hu
    constructor
    · intro hne
      unfold start_task
      rw [hfind]
      simp only [hp, hact]
      have hres := h.1 hne
      simpa using hres
    · intro hnil
      unfold start_task
      rw [hfind]
      simp only [hp, hact]
      have hres := h.2 hnil
      simpa using hres

/-- Concrete store used by the C5 witness: task 1 is Pending and depends
on task 2, which is Completed; no task is InProgress. -/
def db5 : Db :=
  { tasks := [wtask 1 10 Status.pending, wtask 2 20 Status.completed],
    deps := [(1, 2)] }

theorem C5_start_task_witness :
    ∃ t2, start_task db5 1 7 =
        (Except.ok t2, set_task_status db5 1 Status.inProgress 7) ∧
      t2.id = (wtask 1 10 Status.pending).id ∧ t2.status = Status.inProgress ∧
      t2.started_at = some 7 :=
  ((C5_start_task_rules db5 1 7 (wtask 1 10 Status.pending)
      (by decide) (by decide) (by decide)).2 (by decide) [] (by decide)).2 rfl

/-- C6: completing the active task fails with `NoDod` and leaves the
store untouched exactly when the task's `dod`, trimmed, is missing or
empty; otherwise it succeeds, setting the status to Completed and
`completed_at`. -/
theorem C6_complete_task_rules (db : Db) (now : Nat) (active : Task)
    (hact : get_active_task db = some active)
    (hid : get_task db active.id = some active) :
    ((active.dod.map (fun s => trim_is_empty s)).getD true = true →
      complete_task db now = (Except.error (TaskError.noDod active.id), db)) ∧
    ((active.dod.map (fun s => trim_is_empty s)).getD true = false →
      ∃ t2, complete_task db now =
          (Except.ok t2, set_task_status db active.id Status.completed now) ∧
        t2.id = active.id ∧ t2.status = Status.completed ∧
        t2.completed_at = some now ∧ t2.dod = active.dod) := by
  have hset := get_task_set_task_status db active.id Status.completed now
  rw [hid] at hset
  constructor
  · intro hdod
    unfold complete_task
    simp [hact, hid, hdod]
  · intro hdod
    unfold complete_task
    simp only [hact, hid, hdod]
    refine ⟨apply_status Status.completed now active, ?_, ?_, ?_, ?_, ?_⟩
    · simp [hset]
    · exact apply_status_id Status.completed now active
    · rfl
    · rfl
    · rfl

/-- Concrete store used by the C6 witness: task 3 is InProgress with a
non-empty definition of done. -/
def db6 : Db := { tasks := [wtask 3 10 Status.inProgress], deps := [] }

theorem C6_complete_task_witness :
    ∃ t2, complete_task db6 9 =
        (Except.ok t2, set_task_status db6 (wtask 3 10 Status.inProgress).id
          Status.completed 9) ∧
      t2.id = (wtask 3 10 Status.inProgress).id ∧ t2.status = Status.completed ∧
      t2.completed_at = some 9 ∧ t2.dod = (wtask 3 10 Status.inProgress).dod :=
  (C6_complete_task_rules db6 9 (wtask 3 10 Status.inProgress)
    (by decide) (by decide)).2 (by decide)

/-- C10: when no task is InProgress, both `stop_task` and `complete_task`
fail with `NoActiveTask` and return the store unchanged. -/
theorem C10_no_active_task (db : Db) (now : Nat)
    (h : ∀ t ∈ db.tasks, t.status ≠ Status.inProgress) :
    stop_task db now = (Except.error TaskError.noActiveTask, db) ∧
    complete_task db now = (Except.error TaskError.noActiveTask, db) := by
  have hnone : get_active_task db = none := by
    apply List.find?_eq_none.mpr
    intro t ht
    simpa using h t ht
  constructor
  · unfold stop_task
    rw [hnone]
  · unfold complete_task
    rw [hnone]

/-- Concrete store used by the C10 witness: one Pending, one Blocked
task. -/
def db10 : Db :=
  { tasks := [wtask 1 10 Status.pending, wtask 2 20 Status.blocked], deps := [] }

theorem C10_no_active_task_witness :
    stop_task db10 4 = (Except.error TaskError.noActiveTask, db10) ∧
    complete_task db10 4 = (Except.error TaskError.noActiveTask, db10) :=
  C10_no_active_task db10 4 (by decide)

/-! ## Graph engine: priority topological sort (Kahn's algorithm)

tt-kimi `graph.rs::topological_sort`, tt-kimi-dual
`core/graph.rs::topological_sort` and tt-minimax
`graph/sort.rs::topological_sort` run the same loop: a `BinaryHeap` whose
`Ord` is reversed `(manual_order, task_id)`, so `pop` yields the entry
with the least `(manual_order, task_id)` key.  Entries with equal keys
are identical records, so the heap is modelled as a list with a
minimum-extraction `pop`. -/

/-- Heap entry (`HeapTask` in tt-kimi, `MinHeapItem` in tt-minimax,
`TaskNode` in tt-kimi-dual). -/
structure HeapTask where
  manual_order : Rat
  task_id : Int
deriving DecidableEq, Repr

/-- `a` has a key no greater than `b` under the `(manual_order, task_id)`
min-heap priority. -/
def heap_le (a b : HeapTask) : Bool :=
  decide (a.manual_order < b.manual_order) ||
    (a.manual_order == b.manual_order && decide (a.task_id ≤ b.task_id))

/-- `BinaryHeap::pop` for the reversed-`(manual_order, task_id)` order:
removes the entry with the least key (entries with equal keys are equal
records, so which one is removed is immaterial). -/
def popMin : List HeapTask → Option (HeapTask × List HeapTask)
  | [] => none
  | h :: t =>
    match popMin t with
    | none => some (h, t)
    | some (m, r) => if heap_le h m then some (h, t) else some (m, h :: r)

/-- Lookup in the `task_map` `HashMap` (built by inserting the tasks in
list order, so a later insert for the same id wins). -/
def task_map_get (tasks : List Task) (id : Int) : Option Task :=
  tasks.reverse.find? (fun t => t.id == id)

/-- Body of the dependent-processing loop inside Kahn's algorithm: for
each dependent of the just-emitted task, decrement its in-degree and,
when it reaches zero, push it onto the heap (with its `manual_order`
looked up in the task map). -/
def kahn_process (tasks : List Task) :
    List Int → List HeapTask → (Int → Nat) → List HeapTask × (Int → Nat)
  | [], heap, indeg => (heap, indeg)
  | d :: rest, heap, indeg =>
    let n := indeg d - 1
    let indeg2 := fun x => if x = d then n else indeg x
    let heap2 := if n = 0 then
        match task_map_get tasks d with
        | some t => { manual_order := t.manual_order, task_id := d } :: heap
        | none => heap
      else heap
    kahn_process tasks rest heap2 indeg2

/-- The Kahn main loop (`while let Some(..) = heap.pop()`).  One task is
emitted per iteration, so `tasks.length` rounds of fuel are enough for
every run in which no task is emitted twice. -/
def kahn_loop (tasks : List Task) (adjf : Int → List Int) :
    Nat → List HeapTask → (Int → Nat) → List Task
  | 0, _, _ => []
  | fuel + 1, heap, indeg =>
    match popMin heap with
    | none => []
    | some (m, rest) =>
      match task_map_get tasks m.task_id with
      | none => []
      | some task =>
        let st := kahn_process tasks (adjf m.task_id) rest indeg
        task :: kahn_loop tasks adjf fuel st.1 st.2

/-- Kahn's algorithm: seed the heap with the in-degree-zero tasks, then
drain it.  Parameterized over the adjacency and initial-in-degree
construction, which differ in input shape between the ports. -/
def kahn_run (tasks : List Task) (adjf : Int → List Int) (indeg0 : Int → Nat) : List Task :=
  let seeds := (tasks.filter (fun t => indeg0 t.id == 0)).map
    (fun t => { manual_order := t.manual_order, task_id := t.id })
  kahn_loop tasks adjf tasks.length seeds indeg0

/-- Membership of an id in a `(task, deps)` input set
(`task_map.contains_key` in tt-kimi, `task_set.contains` in
tt-minimax). -/
def twd_mem (twd : List (Task × List Int)) (d : Int) : Bool :=
  twd.any (fun p => p.1.id == d)

/-- In-degree construction of tt-kimi / tt-minimax: one unit per
dependency entry of the task whose target id is inside the supplied task
set; dependencies outside the set are not counted. -/
def twd_indeg (twd : List (Task × List Int)) (id : Int) : Nat :=
  ((twd.filter (fun p => p.1.id == id)).map
    (fun p => (p.2.filter (fun d => twd_mem twd d)).length)).sum

/-- Adjacency construction of tt-kimi / tt-minimax: the dependents of
`d`, one entry per in-set dependency occurrence, in task-list order. -/
def twd_adj (twd : List (Task × List Int)) (d : Int) : List Int :=
  (twd.map (fun p =>
    (p.2.filter (fun x => x == d && twd_mem twd x)).map (fun _ => p.1.id))).flatten

/-- tt-kimi `graph.rs::topological_sort`, as called by the scheduler:
note it has no residual-in-degree check, so it never returns an error. -/
def tt_kimi_topological_sort (twd : List (Task × List Int)) :
    Except TaskError (List Task) :=
  Except.ok (kahn_run (twd.map (fun p => p.1)) (twd_adj twd) (twd_indeg twd))

/-- tt-minimax `graph/sort.rs::topological_sort`: same loop, but returns
`CycleDetected` when fewer tasks were emitted than supplied.  The
tt-glm-dual port (`core/graph.rs`) carries the same final check. -/
def tt_minimax_topological_sort (twd : List (Task × List Int)) :
    Except TaskError (List Int) :=
  let r := kahn_run (twd.map (fun p => p.1)) (twd_adj twd) (twd_indeg twd)
  if r.length != twd.length then Except.error TaskError.cycleDetected
  else Except.ok (r.map (fun t => t.id))

/-- Membership of an id in a plain task list (tt-kimi-dual's
`task_ids: HashSet`). -/
def tasks_mem (tasks : List Task) (d : Int) : Bool :=
  tasks.any (fun t => t.id == d)

/-- In-degree construction of tt-kimi-dual: one unit per edge
`(task_id, depends_on)` whose two endpoints are both in the task set. -/
def edges_indeg (tasks : List Task) (dependencies : List (Int × Int)) (id : Int) : Nat :=
  (dependencies.filter (fun e =>
    e.1 == id && tasks_mem tasks e.1 && tasks_mem tasks e.2)).length

/-- Adjacency construction of tt-kimi-dual: dependents of `d` via edges
with both endpoints in the task set, in edge order. -/
def edges_adj (tasks : List Task) (dependencies : List (Int × Int)) (d : Int) : List Int :=
  (dependencies.filter (fun e =>
    e.2 == d && tasks_mem tasks e.1 && tasks_mem tasks e.2)).map (fun e => e.1)

/-- tt-kimi-dual `core/graph.rs::topological_sort` (dropping its
order-conflict side channel, which no claim concerns). -/
def tt_kimi_dual_topological_sort (tasks : List Task)
    (dependencies : List (Int × Int)) : List Task :=
  kahn_run tasks (edges_adj tasks dependencies) (edges_indeg tasks dependencies)

/-! ## tt-glm's placeholder topological sort

tt-glm `graph/topology.rs::topological_sort` never records any
dependency edge (its own comment says "this is a placeholder"): every
task has in-degree zero and the empty adjacency list, so the whole input
is seeded into the heap and drained by `manual_order` alone.  Its
`OrderedTask` comparator ignores the task id, so the emission order of
equal-order tasks is whatever the `BinaryHeap` internals give; the model
below breaks such ties by list position and is used only at inputs whose
orders are pairwise distinct. -/

/-- One `heap.pop()` of tt-glm's heap: least `manual_order` wins. -/
def tt_glm_pop : List Task → Option (Task × List Task)
  | [] => none
  | h :: t =>
    match tt_glm_pop t with
    | none => some (h, t)
    | some (m, r) =>
      if decide (h.manual_order ≤ m.manual_order) then some (h, t) else some (m, h :: r)

/-- Drain tt-glm's heap. -/
def tt_glm_drain : Nat → List Task → List Task
  | 0, _ => []
  | fuel + 1, l =>
    match tt_glm_pop l with
    | none => []
    | some (m, r) => m :: tt_glm_drain fuel r

/-- tt-glm `graph/topology.rs::topological_sort`. -/
def tt_glm_topological_sort (tasks : List Task) : List Task :=
  tt_glm_drain tasks.length tasks

/-- Rust `f64::partial_cmp` on two ordered values (no NaN in the `Rat`
model). -/
def ord_compare (a b : Rat) : Ordering :=
  if a < b then Ordering.lt else if a = b then Ordering.eq else Ordering.gt

/-- tt-glm `OrderedTask::cmp`: reversed comparison of `manual_order`
only — the task id is not consulted. -/
def tt_glm_OrderedTask_cmp (a b : Task) : Ordering :=
  ord_compare b.manual_order a.manual_order

/-- tt-kimi `HeapTask::cmp`: reversed comparison of `manual_order`, then
reversed comparison of `task_id`. -/
def tt_kimi_HeapTask_cmp (a b : HeapTask) : Ordering :=
  (ord_compare b.manual_order a.manual_order).then (compare b.task_id a.task_id)

/-! ## Scheduler: tt-kimi `core.rs::get_next_task` (target branch)

Inputs are the snapshot the store hands the scheduler: the target task
and `get_target_subgraph_with_deps(target)` — each subgraph task together
with its direct dependency ids. -/

/-- The possible outcomes of `get_next_task`.  `noneReady` models the
final `Err(TaskError::NoTarget)` fall-through of the source: tasks exist
but none is ready and the remaining set is not reported as AllBlocked. -/
inductive NextTaskResult where
  | task (t : Task)
  | targetReached (id : Int)
  | allBlocked (ids : List Int)
  | noneReady
deriving DecidableEq, Repr

/-- The active subgraph: the supplied rows minus the Completed tasks. -/
def active_subgraph (subgraph : List (Task × List Int)) : List (Task × List Int) :=
  subgraph.filter (fun p => !(p.1.status == Status.completed))

/-- `deps_map.get(&id).cloned().unwrap_or_default()` over the `HashMap`
built from the active rows. -/
def lookup_deps (active : List (Task × List Int)) (id : Int) : List Int :=
  ((active.reverse.find? (fun p => p.1.id == id)).map (fun p => p.2)).getD []

/-- Dependency status looked up in the `task_map` built from the active
rows; an absent entry (a Completed task was filtered out, or the id is
external) defaults to Completed. -/
def dep_status (active : List (Task × List Int)) (d : Int) : Status :=
  match active.reverse.find? (fun p => p.1.id == d) with
  | some p => p.1.status
  | none => Status.completed

/-- The `(dep_id, status)` rows the scan hands to `can_start_task`. -/
def dep_statuses (active : List (Task × List Int)) (id : Int) : List (Int × Status) :=
  (lookup_deps active id).map (fun i => (i, dep_status active i))

/-- tt-kimi `graph.rs::can_start_task`: `None` when every dependency is
Completed, otherwise `Some` of the unmet ids. -/
def can_start_task (_task_id : Int) (deps : List (Int × Status)) : Option (List Int) :=
  let unmet := (deps.filter (fun d => !(d.2 == Status.completed))).map (fun d => d.1)
  if unmet.isEmpty then none else some unmet

/-- All direct dependencies of the task are Completed, as seen through
the active-subgraph task map. -/
def ready (active : List (Task × List Int)) (t : Task) : Bool :=
  (dep_statuses active t.id).all (fun d => d.2 == Status.completed)

/-- The scan loop of `get_next_task`: walk the topological order; return
the first Pending task whose dependencies are met, else collect the
Pending-but-unready and the Blocked tasks. -/
def nt_scan (active : List (Task × List Int)) :
    List Task → List Task → List Task → Option Task × List Task × List Task
  | [], pending, blocked => (none, pending, blocked)
  | t :: rest, pending, blocked =>
    if t.status == Status.pending then
      match can_start_task t.id (dep_statuses active t.id) with
      | none => (some t, pending, blocked)
      | some _ => nt_scan active rest (pending ++ [t]) blocked
    else if t.status == Status.blocked then nt_scan active rest pending (blocked ++ [t])
    else nt_scan active rest pending blocked

/-- tt-kimi `graph.rs::topological_sort` over `(task, deps)` rows, as the
scheduler calls it (the `Ok` wrapper is dropped; the source has no error
path). -/
def tt_kimi_graph_sort (twd : List (Task × List Int)) : List Task :=
  kahn_run (twd.map (fun p => p.1)) (twd_adj twd) (twd_indeg twd)

/-- tt-kimi `core.rs::get_next_task` with a target set: early
`TargetReached` when the target is Completed; `TargetReached` when the
active subgraph is empty; otherwise scan the topological order; then
`AllBlocked` of the blocked tasks when some task is Blocked and none is
Pending; the second target-Completed check of the source is kept (it is
unreachable); otherwise the `NoTarget` fall-through (`noneReady`). -/
def get_next_task (target : Task) (subgraph : List (Task × List Int)) : NextTaskResult :=
  if target.status == Status.completed then NextTaskResult.targetReached target.id
  else
    let active := active_subgraph subgraph
    if active.isEmpty then NextTaskResult.targetReached target.id
    else
      match nt_scan active (tt_kimi_graph_sort active) [] [] with
      | (some t, _, _) => NextTaskResult.task t
      | (none, pending, blocked) =>
        if !blocked.isEmpty && pending.isEmpty then
          NextTaskResult.allBlocked (blocked.map (fun t => t.id))
        else if target.status == Status.completed then
          NextTaskResult.targetReached target.id
        else NextTaskResult.noneReady

/-- C1 counterexample.  Snapshot: target is task 1 (InProgress), which
depends on task 2 (Blocked); the active subgraph is `{1, 2}`.  The code
returns `AllBlocked([2])` although the remaining set is *not* entirely
Blocked (task 1 is InProgress), where the claim requires the distinct
`NoneReady` result.  (The snapshot is reachable: start task 1, block
task 2, then `add_dependency(1, 2)` — edges may be added to a running
task.) -/
theorem C1_claim_counterexample :
    get_next_task (wtask 1 10 Status.inProgress)
        [(wtask 1 10 Status.inProgress, [2]), (wtask 2 20 Status.blocked, [])] =
      NextTaskResult.allBlocked [2] ∧
    ((active_subgraph
        [(wtask 1 10 Status.inProgress, [2]), (wtask 2 20 Status.blocked, [])]).map
      (fun p => p.1.status)) = [Status.inProgress, Status.blocked] ∧
    get_next_task (wtask 1 10 Status.inProgress)
        [(wtask 1 10 Status.inProgress, [2]), (wtask 2 20 Status.blocked, [])] ≠
      NextTaskResult.noneReady := by
  refine ⟨rfl, rfl, ?_⟩
  decide

/-- `can_start_task` returns `None` exactly when every handed dependency
status is Completed. -/
theorem can_start_task_none_iff (id : Int) (deps : List (Int × Status)) :
    can_start_task id deps = none ↔
      deps.all (fun d => d.2 == Status.completed) = true := by
  have h1 : can_start_task id deps = none ↔
      ((deps.filter (fun d => !(d.2 == Status.completed))).map (fun d => d.1)).isEmpty = true := by
    unfold can_start_task
    by_cases h : ((deps.filter (fun d => !(d.2 == Status.completed))).map
        (fun d => d.1)).isEmpty <;> simp [h]
  rw [h1]
  simp [List.isEmpty_iff, List.filter_eq_nil_iff, List.all_eq_true]

/-- `can_start_task` on a task's dependency rows decides `ready`. -/
theorem can_start_task_ready (active : List (Task × List Int)) (t : Task) :
    can_start_task t.id (dep_statuses active t.id) = none ↔ ready active t = true := by
  rw [can_start_task_none_iff]
  rfl

/-- When the scan returns a task, it is Pending, ready, and the first
such task of the scanned list. -/
theorem nt_scan_some_spec (active : List (Task × List Int)) :
    ∀ ts pending blocked t p b,
      nt_scan active ts pending blocked = (some t, p, b) →
      t.status = Status.pending ∧ ready active t = true ∧
      ∃ pre post, ts = pre ++ t :: post ∧
        ∀ u ∈ pre, ¬(u.status = Status.pending ∧ ready active u = true) := by
  intro ts
  induction ts with
  | nil =>
    intro pending blocked t p b h
    simp [nt_scan] at h
  | cons u rest ih =>
    intro pending blocked t p b h
    unfold nt_scan at h
    by_cases hu : u.status = Status.pending
    · rw [if_pos (by simp [hu])] at h
      cases hcs : can_start_task u.id (dep_statuses active u.id) with
      | none =>
        rw [hcs] at h
        obtain ⟨h1, h2, h3⟩ := Prod.mk.injEq .. ▸ h
        cases h1
        exact ⟨hu, (can_start_task_ready active u).mp hcs, [], rest, rfl, by simp⟩
      | some l =>
        rw [hcs] at h
        obtain ⟨ht, hr, pre, post, hsplit, hpre⟩ := ih _ _ _ _ _ h
        refine ⟨ht, hr, u :: pre, post, by simp [hsplit], ?_⟩
        intro v hv
        rcases List.mem_cons.mp hv with hv | hv
        · subst hv
          intro hcon
          rw [(can_start_task_ready active v).mpr hcon.2] at hcs
          simp at hcs
        · exact hpre v hv
    · rw [if_neg (by simp [hu])] at h
      by_cases hb : u.status = Status.blocked
      · rw [if_pos (by simp [hb])] at h
        obtain ⟨ht, hr, pre, post, hsplit, hpre⟩ := ih _ _ _ _ _ h
        refine ⟨ht, hr, u :: pre, post, by simp [hsplit], ?_⟩
        intro v hv
        rcases List.mem_cons.mp hv with hv | hv
        · subst hv
          exact fun hcon => hu hcon.1
        · exact hpre v hv
      · rw [if_neg (by simp [hb])] at h
        obtain ⟨ht, hr, pre, post, hsplit, hpre⟩ := ih _ _ _ _ _ h
        refine ⟨ht, hr, u :: pre, post, by simp [hsplit], ?_⟩
        intro v hv
        rcases List.mem_cons.mp hv with hv | hv
        · subst hv
          exact fun hcon => hu hcon.1
        · exact hpre v hv

/-- When the scan returns no task, nothing scanned was Pending-and-ready,
the collected pending list is exactly the Pending tasks (appended to the
accumulator) and the collected blocked list exactly the Blocked ones. -/
theorem nt_scan_none_spec (active : List (Task × List Int)) :
    ∀ ts pending blocked p b,
      nt_scan active ts pending blocked = (none, p, b) →
      p = pending ++ ts.filter (fun u => u.status == Status.pending) ∧
      b = blocked ++ ts.filter (fun u => u.status == Status.blocked) ∧
      ∀ u ∈ ts, ¬(u.status = Status.pending ∧ ready active u = true) := by
  intro ts
  induction ts with
  | nil =>
    intro pending blocked p b h
    simp [nt_scan] at h
    simp [h.1, h.2]
  | cons u rest ih =>
    intro pending blocked p b h
    unfold nt_scan at h
    by_cases hu : u.status = Status.pending
    · rw [if_pos (by simp [hu])] at h
      cases hcs : can_start_task u.id (dep_statuses active u.id) with
      | none =>
        rw [hcs] at h
        exact absurd (congrArg Prod.fst h) (by simp)
      | some l =>
        rw [hcs] at h
        obtain ⟨hp, hb2, hrest⟩ := ih _ _ _ _ h
        have hub : u.status ≠ Status.blocked := by rw [hu]; intro hcon; cases hcon
        refine ⟨by simp [hp, hu], by simp [hb2, hub], ?_⟩
        intro v hv
        rcases List.mem_cons.mp hv with hv | hv
        · subst hv
          intro hcon
          rw [(can_start_task_ready active v).mpr hcon.2] at hcs
          simp at hcs
        · exact hrest v hv
    · rw [if_neg (by simp [hu])] at h
      by_cases hb : u.status = Status.blocked
      · rw [if_pos (by simp [hb])] at h
        obtain ⟨hp, hb2, hrest⟩ := ih _ _ _ _ h
        refine ⟨by simp [hp, hu], by simp [hb2, hb], ?_⟩
        intro v hv
        rcases List.mem_cons.mp hv with hv | hv
        · subst hv
          exact fun hcon => hu hcon.1
        · exact hrest v hv
      · rw [if_neg (by simp [hb])] at h
        obtain ⟨hp, hb2, hrest⟩ := ih _ _ _ _ h
        refine ⟨by simp [hp, hu], by simp [hb2, hb], ?_⟩
        intro v hv
        rcases List.mem_cons.mp hv with hv | hv
        · subst hv
          exact fun hcon => hu hcon.1
        · exact hrest v hv

/-- C1, amended to the behaviour of the code: `get_next_task` returns
`TargetReached` iff the target is Completed or the active subgraph is
empty; otherwise `NextTask(t)` only for the first task in topological
order that is Pending with all its dependencies Completed (dependency
statuses looked up inside the active subgraph, absent entries counting as
Completed); otherwise `AllBlocked` — listing exactly the Blocked tasks in
topological order — whenever at least one task is Blocked and *no task is
Pending* (an InProgress task may remain); otherwise `NoneReady`. -/
theorem C1_next_task_amended (target : Task) (subgraph : List (Task × List Int)) :
    (get_next_task target subgraph = NextTaskResult.targetReached target.id ↔
      (target.status = Status.completed ∨ active_subgraph subgraph = [])) ∧
    (∀ t, get_next_task target subgraph = NextTaskResult.task t →
      t.status = Status.pending ∧ ready (active_subgraph subgraph) t = true ∧
      ∃ pre post,
        tt_kimi_graph_sort (active_subgraph subgraph) = pre ++ t :: post ∧
        ∀ u ∈ pre,
          ¬(u.status = Status.pending ∧ ready (active_subgraph subgraph) u = true)) ∧
    (∀ ids, get_next_task target subgraph = NextTaskResult.allBlocked ids →
      ids = ((tt_kimi_graph_sort (active_subgraph subgraph)).filter
          (fun u => u.status == Status.blocked)).map (fun u => u.id) ∧
      ids ≠ [] ∧
      ∀ u ∈ tt_kimi_graph_sort (active_subgraph subgraph),
        u.status ≠ Status.pending) ∧
    (get_next_task target subgraph = NextTaskResult.noneReady →
      target.status ≠ Status.completed ∧ active_subgraph subgraph ≠ [] ∧
      (∀ u ∈ tt_kimi_graph_sort (active_subgraph subgraph),
        ¬(u.status = Status.pending ∧ ready (active_subgraph subgraph) u = true)) ∧
      ((∃ u ∈ tt_kimi_graph_sort (active_subgraph subgraph),
          u.status = Status.pending) ∨
        ∀ u ∈ tt_kimi_graph_sort (active_subgraph subgraph),
          u.status ≠ Status.blocked)) := by
  by_cases h1 : target.status = Status.completed
  · have hres : get_next_task target subgraph = NextTaskResult.targetReached target.id := by
      unfold get_next_task
      rw [if_pos (by simp [h1])]
    rw [hres]
    refine ⟨by simp [h1], ?_, ?_, ?_⟩
    · intro t h; cases h
    · intro ids h; cases h
    · intro h; cases h
  · have hb1 : (target.status == Status.completed) = false := by simp [h1]
    by_cases h2 : (active_subgraph subgraph).isEmpty
    · have hres : get_next_task target subgraph = NextTaskResult.targetReached target.id := by
        unfold get_next_task
        rw [if_neg (by simp [h1]), if_pos h2]
      rw [hres]
      have hnil : active_subgraph subgraph = [] := by
        cases hh : active_subgraph subgraph with
        | nil => rfl
        | cons a l => rw [hh] at h2; cases h2
      refine ⟨by simp [hnil], ?_, ?_, ?_⟩
      · intro t h; cases h
      · intro ids h; cases h
      · intro h; cases h
    · have hne : active_subgraph subgraph ≠ [] := by
        intro hcon
        rw [hcon] at h2
        exact h2 rfl
      cases hscan : nt_scan (active_subgraph subgraph)
          (tt_kimi_graph_sort (active_subgraph subgraph)) [] [] with
      | mk o pb =>
        cases pb with
        | mk p b =>
          cases o with
          | some t =>
            have hres : get_next_task target subgraph = NextTaskResult.task t := by
              unfold get_next_task
              rw [if_neg (by simp [h1]), if_neg h2]
              simp only [hscan]
            rw [hres]
            obtain ⟨ht, hr, pre, post, hsplit, hpre⟩ :=
              nt_scan_some_spec (active_subgraph subgraph) _ _ _ _ _ _ hscan
            refine ⟨by simp [h1, hne], ?_, ?_, ?_⟩
            · intro t2 h
              cases h
              exact ⟨ht, hr, pre, post, hsplit, hpre⟩
            · intro ids h; cases h
            · intro h; cases h
          | none =>
            obtain ⟨hp, hb2, hnr⟩ :=
              nt_scan_none_spec (active_subgraph subgraph) _ _ _ _ _ hscan
            simp only [List.nil_append] at hp hb2
            by_cases h3 : (!b.isEmpty && p.isEmpty) = true
            · have hres : get_next_task target subgraph =
                  NextTaskResult.allBlocked (b.map (fun t => t.id)) := by
                unfold get_next_task
                rw [if_neg (by simp [h1]), if_neg h2]
                simp only [hscan]
                rw [if_pos h3]
              rw [hres]
              have hbne : b ≠ [] := by
                intro hcon
                rw [hcon] at h3
                simp at h3
              have hpnil : p = [] := by
                cases hh : p with
                | nil => rfl
                | cons a l => rw [hh] at h3; simp at h3
              refine ⟨by simp [h1, hne], ?_, ?_, ?_⟩
              · intro t h; cases h
              · intro ids h
                cases h
                refine ⟨by rw [hb2], ?_, ?_⟩
                · intro hcon
                  exact hbne (List.map_eq_nil_iff.mp hcon)
                · intro u hu hcon
                  have : u ∈ (tt_kimi_graph_sort (active_subgraph subgraph)).filter
                      (fun v => v.status == Status.pending) :=
                    List.mem_filter.mpr ⟨hu, by simp [hcon]⟩
                  rw [← hp, hpnil] at this
                  cases this
              · intro h; cases h
            · have hres : get_next_task target subgraph = NextTaskResult.noneReady := by
                unfold get_next_task
                rw [if_neg (by simp [h1]), if_neg h2]
                simp only [hscan]
                rw [if_neg h3, if_neg (by simp [h1])]
              rw [hres]
              refine ⟨by simp [h1, hne], ?_, ?_, ?_⟩
              · intro t h; cases h
              · intro ids h; cases h
              · intro _
                refine ⟨h1, hne, hnr, ?_⟩
                rcases Bool.and_eq_false_iff.mp (Bool.not_eq_true _ ▸ h3 :) with hcase | hcase
                · right
                  intro u hu hcon
                  have hbnil : b = [] := by
                    cases hh : b with
                    | nil => rfl
                    | cons a l => rw [hh] at hcase; simp at hcase
                  have : u ∈ (tt_kimi_graph_sort (active_subgraph subgraph)).filter
                      (fun v => v.status == Status.blocked) :=
                    List.mem_filter.mpr ⟨hu, by simp [hcon]⟩
                  rw [← hb2, hbnil] at this
                  cases this
                · left
                  have hpne : p ≠ [] := by
                    intro hcon
                    rw [hcon] at hcase
                    simp at hcase
                  cases hh : p with
                  | nil => exact absurd hh hpne
                  | cons a l =>
                    have ha : a ∈ (tt_kimi_graph_sort (active_subgraph subgraph)).filter
                        (fun v => v.status == Status.pending) := by
                      rw [← hp, hh]
                      exact List.mem_cons_self a l
                    have := List.mem_filter.mp ha
                    exact ⟨a, this.1, by simpa using this.2⟩

/-- Witness for the amended C1: a single Pending task with no
dependencies, targeted at itself, is returned as the next task and
satisfies the stated characterization. -/
theorem C1_next_task_amended_witness :
    (wtask 7 10 Status.pending).status = Status.pending ∧
    ready (active_subgraph [(wtask 7 10 Status.pending, [])])
      (wtask 7 10 Status.pending) = true ∧
    ∃ pre post,
      tt_kimi_graph_sort (active_subgraph [(wtask 7 10 Status.pending, [])]) =
        pre ++ wtask 7 10 Status.pending :: post ∧
      ∀ u ∈ pre,
        ¬(u.status = Status.pending ∧
          ready (active_subgraph [(wtask 7 10 Status.pending, [])]) u = true) :=
  (C1_next_task_amended (wtask 7 10 Status.pending)
      [(wtask 7 10 Status.pending, [])]).2.1
    (wtask 7 10 Status.pending) rfl

/-! ## Cycle detection: tt-kimi `graph.rs::would_create_cycle`

The source runs a DFS from `to` looking for `from`, over the existing
"depends-on" adjacency plus the proposed edge `from → to`; the visited
set doubles as the current DFS stack (`visited.remove` on backtrack) and
`path` records the nodes after the start.  The unbounded Rust recursion
is modelled with a fuel of one more than the number of (possibly
repeated) graph nodes, which the theorems show is never exhausted. -/

/-- Adjacency over the existing dependency rows alone: `task_id →
depends_on`, in row order. -/
def wcc_adj0 (edges : List (Int × Int)) (x : Int) : List Int :=
  (edges.filter (fun e => e.1 == x)).map (fun e => e.2)

/-- Adjacency with the proposed edge `fromId → toId` appended (the
source pushes it onto `adjacency[from]` after the existing rows). -/
def wcc_adj (edges : List (Int × Int)) (fromId toId : Int) (x : Int) : List Int :=
  wcc_adj0 edges x ++ (if x == fromId then [toId] else [])

mutual

/-- `graph.rs::dfs_find_path`, state-passing: returns whether `target`
was found together with the final `visited` and `path` state. -/
def dfs_find_path (adj : Int → List Int) (target : Int) (fuel : Nat) (current : Int)
    (visited path : List Int) : Bool × List Int × List Int :=
  match fuel with
  | 0 => (false, visited, path)
  | fuel + 1 =>
    if current = target then (true, visited, path)
    else if current ∈ visited then (false, visited, path)
    else
      match dfs_loop adj target fuel (adj current) (current :: visited) path with
      | (true, v, p) => (true, v, p)
      | (false, v, p) => (false, v.erase current, p)
termination_by (fuel, 0)

/-- The neighbor loop of `dfs_find_path`: push the neighbor onto `path`,
recurse, and pop it again on failure. -/
def dfs_loop (adj : Int → List Int) (target : Int) (fuel : Nat) (ns : List Int)
    (visited path : List Int) : Bool × List Int × List Int :=
  match ns with
  | [] => (false, visited, path)
  | n :: ns =>
    match dfs_find_path adj target fuel n visited (path ++ [n]) with
    | (true, v, p) => (true, v, p)
    | (false, v, p) => dfs_loop adj target fuel ns v p.dropLast
termination_by (fuel, ns.length + 1)

end

/-- Every node id `would_create_cycle` can ever visit: the two proposed
endpoints and the endpoints of every existing row. -/
def wcc_nodes (edges : List (Int × Int)) (fromId toId : Int) : List Int :=
  fromId :: toId :: (edges.map (fun e => e.1) ++ edges.map (fun e => e.2))

/-- tt-kimi `graph.rs::would_create_cycle`: DFS from `toId` for `fromId`
over the adjacency including the proposed edge; on success the reported
cycle is `from :: to :: path` (the DFS path ends at `from`, closing the
loop). -/
def would_create_cycle (edges : List (Int × Int)) (fromId toId : Int) :
    Option (List Int) :=
  match dfs_find_path (wcc_adj edges fromId toId) fromId
      ((wcc_nodes edges fromId toId).length + 1) toId [] [] with
  | (true, _, p) => some (fromId :: toId :: p)
  | (false, _, _) => none

/-- Reachability by zero or more forward depends-on steps. -/
inductive Reaches (adj : Int → List Int) : Int → Int → Prop where
  | refl (a : Int) : Reaches adj a a
  | head {a b c : Int} : b ∈ adj a → Reaches adj b c → Reaches adj a c

/-- The shape of a successful DFS extension: the node sequence appended
to `path` by a call with the given `current` and `visited`, ending when
`target` is reached, never revisiting the stack. -/
inductive DPath (adj : Int → List Int) (target : Int) : Int → List Int → List Int → Prop where
  | base (visited : List Int) : DPath adj target target visited []
  | step {current : Int} {visited : List Int} {n : Int} {ext : List Int} :
      current ≠ target → current ∉ visited → n ∈ adj current →
      DPath adj target n (current :: visited) ext →
      DPath adj target current visited (n :: ext)

/-- Walks: the successive nodes after the start, ending at the last. -/
inductive IsWalk (adj : Int → List Int) : Int → List Int → Int → Prop where
  | nil (a : Int) : IsWalk adj a [] a
  | cons {a b t : Int} {l : List Int} : b ∈ adj a → IsWalk adj b l t → IsWalk adj a (b :: l) t

/-- A failed DFS call restores `visited` and `path` exactly (the source
pops what it pushed), given that the inner calls do. -/
theorem dfs_loop_restore_of (adj : Int → List Int) (target : Int) (fuel : Nat)
    (hf : ∀ current visited path v p,
      dfs_find_path adj target fuel current visited path = (false, v, p) →
      v = visited ∧ p = path) :
    ∀ ns visited path v p,
      dfs_loop adj target fuel ns visited path = (false, v, p) →
      v = visited ∧ p = path := by
  intro ns
  induction ns with
  | nil =>
    intro vis path v p h
    unfold dfs_loop at h
    simp at h
    exact ⟨h.1.symm, h.2.symm⟩
  | cons n ns ih =>
    intro vis path v p h
    unfold dfs_loop at h
    cases hcall : dfs_find_path adj target fuel n vis (path ++ [n]) with
    | mk b vp =>
      rw [hcall] at h
      cases b with
      | true => simp at h
      | false =>
        obtain ⟨hv, hp⟩ := hf _ _ _ _ _ hcall
        simp only at h
        rw [hv, hp, List.dropLast_concat] at h
        exact ih _ _ _ _ h

/-- A failed `dfs_find_path` call restores `visited` and `path`. -/
theorem dfs_find_path_restore (adj : Int → List Int) (target : Int) :
    ∀ fuel current visited path v p,
      dfs_find_path adj target fuel current visited path = (false, v, p) →
      v = visited ∧ p = path := by
  intro fuel
  induction fuel with
  | zero =>
    intro c vis path v p h
    unfold dfs_find_path at h
    simp at h
    exact ⟨h.1.symm, h.2.symm⟩
  | succ fuel ih =>
    intro c vis path v p h
    unfold dfs_find_path at h
    by_cases h1 : c = target
    · rw [if_pos h1] at h
      simp at h
    · rw [if_neg h1] at h
      by_cases h2 : c ∈ vis
      · rw [if_pos h2] at h
        simp at h
        exact ⟨h.1.symm, h.2.symm⟩
      · rw [if_neg h2] at h
        cases hl : dfs_loop adj target fuel (adj c) (c :: vis) path with
        | mk b vp =>
          rw [hl] at h
          cases b with
          | true => simp at h
          | false =>
            obtain ⟨hv, hp⟩ := dfs_loop_restore_of adj target fuel ih _ _ _ _ _ hl
            simp only at h
            simp at h
            rw [hv] at h
            rw [hp] at h
            refine ⟨?_, h.2.symm⟩
            rw [← h.1, List.erase_cons_head]

/-- The restore lemma for `dfs_loop` itself. -/
theorem dfs_loop_restore (adj : Int → List Int) (target : Int) (fuel : Nat) :
    ∀ ns visited path v p,
      dfs_loop adj target fuel ns visited path = (false, v, p) →
      v = visited ∧ p = path :=
  dfs_loop_restore_of adj target fuel (dfs_find_path_restore adj target fuel)

/-- A successful loop call found the target through one of its
neighbors, given soundness of the inner calls. -/
theorem dfs_loop_found_of (adj : Int → List Int) (target : Int) (fuel : Nat)
    (hf : ∀ current visited path v p,
      dfs_find_path adj target fuel current visited path = (true, v, p) →
      ∃ ext, p = path ++ ext ∧ DPath adj target current visited ext) :
    ∀ ns visited path v p,
      dfs_loop adj target fuel ns visited path = (true, v, p) →
      ∃ n, n ∈ ns ∧ ∃ ext, p = path ++ (n :: ext) ∧
        DPath adj target n visited ext := by
  intro ns
  induction ns with
  | nil =>
    intro vis path v p h
    unfold dfs_loop at h
    simp at h
  | cons n ns ih =>
    intro vis path v p h
    unfold dfs_loop at h
    cases hcall : dfs_find_path adj target fuel n vis (path ++ [n]) with
    | mk b vp =>
      rw [hcall] at h
      cases b with
      | true =>
        simp only at h
        obtain ⟨ext, hp, hd⟩ := hf _ _ _ _ _ hcall
        refine ⟨n, List.mem_cons_self n ns, ext, ?_, hd⟩
        have hpp : p = vp.2 := by
          have h2 := congrArg (fun q => q.2.2) h
          simpa using h2.symm
        rw [hpp, hp]
        simp
      | false =>
        obtain ⟨hv, hp⟩ := dfs_find_path_restore adj target fuel _ _ _ _ _ hcall
        simp only at h
        rw [hv, hp, List.dropLast_concat] at h
        obtain ⟨m, hm, ext, hpe, hd⟩ := ih _ _ _ _ h
        exact ⟨m, List.mem_cons_of_mem n hm, ext, hpe, hd⟩

/-- Soundness of the DFS: a successful call appends to `path` a
`DPath`-shaped extension from `current` to `target`. -/
theorem dfs_find_path_found (adj : Int → List Int) (target : Int) :
    ∀ fuel current visited path v p,
      dfs_find_path adj target fuel current visited path = (true, v, p) →
      ∃ ext, p = path ++ ext ∧ DPath adj target current visited ext := by
  intro fuel
  induction fuel with
  | zero =>
    intro c vis path v p h
    unfold dfs_find_path at h
    simp at h
  | succ fuel ih =>
    intro c vis path v p h
    unfold dfs_find_path at h
    by_cases h1 : c = target
    · rw [if_pos h1] at h
      simp at h
      subst h1
      exact ⟨[], by simp [h.2], DPath.base vis⟩
    · rw [if_neg h1] at h
      by_cases h2 : c ∈ vis
      · rw [if_pos h2] at h
        simp at h
      · rw [if_neg h2] at h
        cases hl : dfs_loop adj target fuel (adj c) (c :: vis) path with
        | mk b vp =>
          rw [hl] at h
          cases b with
          | false => simp at h
          | true =>
            simp only at h
            obtain ⟨n, hn, ext, hpe, hd⟩ := dfs_loop_found_of adj target fuel ih _ _ _ _ _ hl
            have hpp : p = vp.2 := by
              have h3 := congrArg (fun q => q.2.2) h
              simpa using h3.symm
            exact ⟨n :: ext, hpp ▸ hpe, DPath.step h1 h2 hn hd⟩

/-- Completeness of the loop, given completeness of the inner calls: a
failed loop call rules out a `DPath` through any of the neighbors. -/
theorem dfs_loop_complete_of (adj : Int → List Int) (target : Int) (fuel : Nat)
    (S : List Int)
    (hf : ∀ current visited path, current ∈ S →
      (S.toFinset \ visited.toFinset).card < fuel →
      (dfs_find_path adj target fuel current visited path).1 = false →
      ¬ ∃ ext, DPath adj target current visited ext) :
    ∀ ns visited path, (∀ n ∈ ns, n ∈ S) →
      (S.toFinset \ visited.toFinset).card < fuel →
      (dfs_loop adj target fuel ns visited path).1 = false →
      ∀ n ∈ ns, ¬ ∃ ext, DPath adj target n visited ext := by
  intro ns
  induction ns with
  | nil =>
    intro vis path hns hcard hres n hn
    cases hn
  | cons m ns ih =>
    intro vis path hns hcard hres n hn
    unfold dfs_loop at hres
    cases hcall : dfs_find_path adj target fuel m vis (path ++ [m]) with
    | mk b vp =>
      rw [hcall] at hres
      cases b with
      | true => simp at hres
      | false =>
        obtain ⟨hv, hp⟩ := dfs_find_path_restore adj target fuel _ _ _ _ _ hcall
        simp only at hres
        rw [hv, hp, List.dropLast_concat] at hres
        rcases List.mem_cons.mp hn with hn | hn
        · subst hn
          exact hf n vis (path ++ [n]) (hns n (List.mem_cons_self n ns)) hcard
            (by rw [hcall])
        · exact ih vis path (fun x hx => hns x (List.mem_cons_of_mem m hx))
            hcard hres n hn

/-- Completeness of the DFS: with enough fuel (more than the number of
yet-unvisited candidate nodes), a failed call means no `DPath`-shaped
route from `current` to `target` avoiding `visited` exists. -/
theorem dfs_find_path_complete (adj : Int → List Int) (target : Int) (S : List Int)
    (hadj : ∀ x y, y ∈ adj x → y ∈ S) :
    ∀ fuel current visited path, current ∈ S →
      (S.toFinset \ visited.toFinset).card < fuel →
      (dfs_find_path adj target fuel current visited path).1 = false →
      ¬ ∃ ext, DPath adj target current visited ext := by
  intro fuel
  induction fuel with
  | zero =>
    intro c vis path hc hcard
    exact absurd hcard (by omega)
  | succ fuel ih =>
    intro c vis path hc hcard hres
    unfold dfs_find_path at hres
    by_cases h1 : c = target
    · rw [if_pos h1] at hres
      simp at hres
    · rw [if_neg h1] at hres
      by_cases h2 : c ∈ vis
      · rintro ⟨ext, hd⟩
        cases hd with
        | base => exact h1 rfl
        | step hne hnv hn hsub => exact hnv h2
      · rw [if_neg h2] at hres
        have hcmem : c ∈ S.toFinset \ vis.toFinset :=
          Finset.mem_sdiff.mpr ⟨List.mem_toFinset.mpr hc, fun hcon =>
            h2 (List.mem_toFinset.mp hcon)⟩
        have hcard2 : (S.toFinset \ (c :: vis).toFinset).card < fuel := by
          rw [List.toFinset_cons, Finset.sdiff_insert,
            Finset.card_erase_of_mem hcmem]
          have hpos : 0 < (S.toFinset \ vis.toFinset).card :=
            Finset.card_pos.mpr ⟨c, hcmem⟩
          omega
        cases hl : dfs_loop adj target fuel (adj c) (c :: vis) path with
        | mk b vp =>
          rw [hl] at hres
          cases b with
          | true => simp at hres
          | false =>
            have hloop := dfs_loop_complete_of adj target fuel S ih (adj c)
              (c :: vis) path (fun n hn => hadj c n hn) hcard2 (by rw [hl])
            rintro ⟨ext, hd⟩
            cases hd with
            | base => exact h1 rfl
            | step hne hnv hn hsub => exact hloop _ hn ⟨_, hsub⟩

/-- Dropping a walk prefix up to (and including) an occurrence of `b`
leaves a walk from `b`. -/
theorem walk_suffix (adj : Int → List Int) (t b : Int) (l2 : List Int) :
    ∀ l1 a, IsWalk adj a (l1 ++ b :: l2) t → IsWalk adj b l2 t := by
  intro l1
  induction l1 with
  | nil =>
    intro a hw
    cases hw with
    | cons hb hw2 => exact hw2
  | cons c l1 ih =>
    intro a hw
    cases hw with
    | cons hb hw2 => exact ih c hw2

/-- Every walk contains a duplicate-free walk between the same
endpoints. -/
theorem walk_to_nodup (adj : Int → List Int) (t : Int) :
    ∀ {a : Int} {l : List Int}, IsWalk adj a l t →
      ∃ l2, IsWalk adj a l2 t ∧ (a :: l2).Nodup := by
  intro a l hw
  induction hw with
  | nil a => exact ⟨[], IsWalk.nil a, List.nodup_singleton a⟩
  | @cons a b t l hb hw ih =>
    obtain ⟨l2, hw2, hnd⟩ := ih
    by_cases ha : a ∈ b :: l2
    · obtain ⟨l1, l3, hsplit⟩ := List.append_of_mem ha
      have hw3 : IsWalk adj a l3 t := by
        apply walk_suffix adj t a l3 l1 a
        rw [← hsplit]
        exact IsWalk.cons hb hw2
      have hnd3 : (a :: l3).Nodup := by
        have hsub : (a :: l3).Sublist (b :: l2) := by
          rw [hsplit]
          exact (List.sublist_append_right l1 (a :: l3))
        exact hnd.sublist hsub
      exact ⟨l3, hw3, hnd3⟩
    · exact ⟨b :: l2, IsWalk.cons hb hw2, List.nodup_cons.mpr ⟨ha, hnd⟩⟩

/-- Reachability is the same as the existence of a walk. -/
theorem reaches_iff_walk (adj : Int → List Int) (a t : Int) :
    Reaches adj a t ↔ ∃ l, IsWalk adj a l t := by
  constructor
  · intro h
    induction h with
    | refl a => exact ⟨[], IsWalk.nil a⟩
    | head hb hr ih =>
      obtain ⟨l, hw⟩ := ih
      exact ⟨_ :: l, IsWalk.cons hb hw⟩
  · rintro ⟨l, hw⟩
    induction hw with
    | nil a => exact Reaches.refl a
    | cons hb hw ih => exact Reaches.head hb ih

/-- A duplicate-free walk that avoids `visited` yields a DFS
extension. -/
theorem walk_nodup_to_dpath (adj : Int → List Int) (t : Int) :
    ∀ {a : Int} {l : List Int}, IsWalk adj a l t → (a :: l).Nodup →
      ∀ visited, (∀ x ∈ a :: l, x ∉ visited) →
      ∃ ext, DPath adj t a visited ext := by
  intro a l hw
  induction hw with
  | nil a =>
    intro _ visited _
    exact ⟨[], DPath.base visited⟩
  | @cons a b t l hb hw ih =>
    intro hnd visited havoid
    by_cases hat : a = t
    · subst hat
      exact ⟨[], DPath.base visited⟩
    · have havoid2 : ∀ x ∈ b :: l, x ∉ a :: visited := by
        intro x hx hcon
        rcases List.mem_cons.mp hcon with hxa | hxv
        · subst hxa
          exact (List.nodup_cons.mp hnd).1 hx
        · exact havoid x (List.mem_cons_of_mem a hx) hxv
      obtain ⟨ext, hsub⟩ := ih (List.nodup_cons.mp hnd).2 (a :: visited) havoid2
      exact ⟨b :: ext, DPath.step hat (havoid a (List.mem_cons_self a _)) hb hsub⟩

/-- Soundness of `DPath`: its shape witnesses reachability. -/
theorem dpath_reaches (adj : Int → List Int) (target : Int) :
    ∀ {c : Int} {vis ext : List Int}, DPath adj target c vis ext →
      Reaches adj c target := by
  intro c vis ext hd
  induction hd with
  | base visited => exact Reaches.refl target
  | step hne hnv hn hsub ih => exact Reaches.head hn ih

/-- Every node of a DFS extension is the target or lies outside the
stack at the extension's start, including the start node itself. -/
theorem dpath_mem (adj : Int → List Int) (target : Int) :
    ∀ {c : Int} {vis ext : List Int}, DPath adj target c vis ext →
      ∀ x ∈ ext, x = target ∨ x ∉ (c :: vis) := by
  intro c vis ext hd
  induction hd with
  | base visited =>
    intro x hx
    cases hx
  | @step current visited n ext hne hnv hn hsub ih =>
    intro x hx
    rcases List.mem_cons.mp hx with hx | hx
    · subst hx
      cases hsub with
      | base _ => exact Or.inl rfl
      | step hne2 hnv2 _ _ => exact Or.inr hnv2
    · rcases ih x hx with h | h
      · exact Or.inl h
      · exact Or.inr (fun hcon => h (List.mem_cons_of_mem n hcon))

/-- A DFS extension from a non-target start is nonempty, ends at the
target, and passes through the target exactly once. -/
theorem dpath_target_once (adj : Int → List Int) (target : Int) :
    ∀ {c : Int} {vis ext : List Int}, DPath adj target c vis ext →
      c ≠ target →
      ext ≠ [] ∧ ext.getLast? = some target ∧ ext.count target = 1 := by
  intro c vis ext hd
  induction hd with
  | base visited =>
    intro hne
    exact absurd rfl hne
  | @step current visited n ext hne hnv hn hsub ih =>
    intro _
    by_cases hnt : n = target
    · subst hnt
      cases hsub with
      | base _ =>
        refine ⟨by simp, rfl, ?_⟩
        simp
      | step hne2 _ _ _ => exact absurd rfl hne2
    · obtain ⟨hne2, hlast, hcount⟩ := ih hnt
      refine ⟨by simp, ?_, ?_⟩
      · cases hext : ext with
        | nil => exact absurd hext hne2
        | cons e l =>
          rw [hext] at hlast
          simpa using hlast
      · rw [List.count_cons]
        simp [hcount, hnt, Ne.symm hnt]

/-- The proposed edge `fromId → toId` cannot help a path reach `fromId`:
reachability of `fromId` with the edge added equals reachability over
the existing rows alone. -/
theorem reaches_elim_new_edge (edges : List (Int × Int)) (fromId toId : Int) :
    ∀ a c, Reaches (wcc_adj edges fromId toId) a c → c = fromId →
      Reaches (wcc_adj0 edges) a fromId := by
  intro a c h
  induction h with
  | refl a =>
    intro he
    rw [he]
    exact Reaches.refl fromId
  | @head a b c hb hr ih =>
    intro he
    by_cases ha : a = fromId
    · rw [ha]
      exact Reaches.refl fromId
    · have hb0 : b ∈ wcc_adj0 edges a := by
        unfold wcc_adj at hb
        rw [if_neg (by simpa using ha)] at hb
        simpa using hb
      exact Reaches.head hb0 (ih he)

/-- Adding the proposed edge preserves all existing reachability. -/
theorem reaches_mono_new_edge (edges : List (Int × Int)) (fromId toId : Int) :
    ∀ a c, Reaches (wcc_adj0 edges) a c →
      Reaches (wcc_adj edges fromId toId) a c := by
  intro a c h
  induction h with
  | refl a => exact Reaches.refl a
  | head hb hr ih =>
    exact Reaches.head (by unfold wcc_adj; exact List.mem_append_left _ hb) ih

/-- Every neighbor the DFS can see lies in `wcc_nodes`. -/
theorem wcc_adj_in_nodes (edges : List (Int × Int)) (fromId toId : Int) :
    ∀ x y, y ∈ wcc_adj edges fromId toId x → y ∈ wcc_nodes edges fromId toId := by
  intro x y hy
  unfold wcc_adj at hy
  rcases List.mem_append.mp hy with h | h
  · unfold wcc_adj0 at h
    obtain ⟨e, he, hey⟩ := List.mem_map.mp h
    have hmem : y ∈ edges.map (fun e => e.2) :=
      List.mem_map.mpr ⟨e, List.mem_of_mem_filter he, hey⟩
    unfold wcc_nodes
    simp [hmem]
  · by_cases hx : (x == fromId) = true
    · rw [if_pos hx] at h
      simp at h
      subst h
      unfold wcc_nodes
      simp
    · rw [if_neg hx] at h
      cases h

/-- C4: for every existing edge set and proposed edge `fromId → toId`
with distinct endpoints (self-dependencies are rejected upstream),
`would_create_cycle` returns `None` exactly when `fromId` is not
reachable from `toId` through the existing depends-on edges, and any
returned path starts and ends with `fromId`, contains `fromId` exactly
twice (the closing repeat) and `toId` exactly once.  This holds for all
edge sets, in particular for the acyclic ones the claim quantifies
over. -/
theorem C4_would_create_cycle (edges : List (Int × Int)) (fromId toId : Int)
    (hne : fromId ≠ toId) :
    (would_create_cycle edges fromId toId = none ↔
      ¬ Reaches (wcc_adj0 edges) toId fromId) ∧
    (∀ p, would_create_cycle edges fromId toId = some p →
      p.head? = some fromId ∧ p.getLast? = some fromId ∧
      p.count fromId = 2 ∧ p.count toId = 1) := by
  cases hmatch : dfs_find_path (wcc_adj edges fromId toId) fromId
      ((wcc_nodes edges fromId toId).length + 1) toId [] [] with
  | mk b vp =>
    cases b with
    | false =>
      have hres : would_create_cycle edges fromId toId = none := by
        unfold would_create_cycle
        rw [hmatch]
      constructor
      · rw [hres]
        constructor
        · intro _ hcon
          have h1 : Reaches (wcc_adj edges fromId toId) toId fromId :=
            reaches_mono_new_edge edges fromId toId toId fromId hcon
          obtain ⟨l, hw⟩ := (reaches_iff_walk _ _ _).mp h1
          obtain ⟨l2, hw2, hnd⟩ := walk_to_nodup _ _ hw
          obtain ⟨ext, hd⟩ := walk_nodup_to_dpath _ _ hw2 hnd [] (by simp)
          have htoS : toId ∈ wcc_nodes edges fromId toId := by
            unfold wcc_nodes
            simp
          have hcard : ((wcc_nodes edges fromId toId).toFinset \
              ([] : List Int).toFinset).card <
              (wcc_nodes edges fromId toId).length + 1 := by
            simp only [List.toFinset_nil, Finset.sdiff_empty]
            exact Nat.lt_succ_of_le (List.toFinset_card_le _)
          have hcomp := dfs_find_path_complete (wcc_adj edges fromId toId) fromId
            (wcc_nodes edges fromId toId) (wcc_adj_in_nodes edges fromId toId)
            ((wcc_nodes edges fromId toId).length + 1) toId [] [] htoS hcard
            (by rw [hmatch])
          exact hcomp ⟨ext, hd⟩
        · intro _
          rfl
      · intro p hp
        rw [hres] at hp
        cases hp
    | true =>
      have hres : would_create_cycle edges fromId toId =
          some (fromId :: toId :: vp.2) := by
        unfold would_create_cycle
        rw [hmatch]
      obtain ⟨ext, hpe, hd⟩ := dfs_find_path_found _ _ _ _ _ _ _ _ hmatch
      have hext : vp.2 = ext := by simpa using hpe
      subst hext
      have hreach0 : Reaches (wcc_adj0 edges) toId fromId :=
        reaches_elim_new_edge edges fromId toId toId fromId
          (dpath_reaches _ _ hd) rfl
      constructor
      · rw [hres]
        constructor
        · intro hcon
          cases hcon
        · intro hcon
          exact absurd hreach0 hcon
      · intro p hp
        rw [hres] at hp
        have hp2 : p = fromId :: toId :: vp.2 := by
          injection hp with hp
          exact hp.symm
        subst hp2
        obtain ⟨hene, hlast, hcount⟩ := dpath_target_once _ _ hd (Ne.symm hne)
        have htoext : toId ∉ vp.2 := by
          intro hcon
          rcases dpath_mem _ _ hd toId hcon with h | h
          · exact hne h.symm
          · exact h (List.mem_cons_self toId [])
        refine ⟨rfl, ?_, ?_, ?_⟩
        · have hl2 : (fromId :: toId :: vp.2).getLast? = (toId :: vp.2).getLast? :=
            List.getLast?_cons_cons ..
          have hl1 : (toId :: vp.2).getLast? = vp.2.getLast? := by
            cases hv : vp.2 with
            | nil => exact absurd hv hene
            | cons e l => exact List.getLast?_cons_cons ..
          rw [hl2, hl1, hlast]
        · rw [List.count_cons, List.count_cons]
          have h1 : (fromId == toId) = false := by simpa using hne
          have h2 : (fromId == fromId) = true := by simp
          rw [hcount]
          simp [h1, h2, Ne.symm hne]
        · rw [List.count_cons, List.count_cons]
          have h0 : vp.2.count toId = 0 := List.count_eq_zero.mpr htoext
          have h1 : (toId == toId) = true := by simp
          have h2 : (toId == fromId) = false := by
            simpa using Ne.symm hne
          rw [h0]
          simp [h1, h2, hne]

/-- Witness for C4 at the source's own test input: edges "2 depends on
1" and "3 depends on 2", proposed edge "1 depends on 3". -/
theorem C4_would_create_cycle_witness :
    ((1 : Int) ≠ 3) ∧
    ((would_create_cycle [(2, 1), (3, 2)] 1 3 = none ↔
      ¬ Reaches (wcc_adj0 [(2, 1), (3, 2)]) 3 1) ∧
    (∀ p, would_create_cycle [(2, 1), (3, 2)] 1 3 = some p →
      p.head? = some 1 ∧ p.getLast? = some 1 ∧
      p.count 1 = 2 ∧ p.count 3 = 1)) :=
  ⟨by decide, C4_would_create_cycle [(2, 1), (3, 2)] 1 3 (by decide)⟩

/-! ## General correctness of the shared Kahn core

The three conforming ports run `kahn_run` over an in-degree map and an
adjacency map derived from a restricted edge list `EL` of
`(dependent, dependency)` pairs whose endpoints lie in the task set.  The
lemmas below establish the loop invariant and the resulting guarantees:
emitted tasks respect every edge of `EL`, each emission is the
minimum-`(manual_order, id)` eligible task, and on acyclic inputs every
task is emitted exactly once. -/

/-- `popMin` returns `none` only on the empty heap. -/
theorem popMin_eq_none (heap : List HeapTask) :
    popMin heap = none ↔ heap = [] := by
  cases heap with
  | nil => simp [popMin]
  | cons h t =>
    simp only [popMin]
    cases hp : popMin t with
    | none => simp
    | some mr =>
      cases mr with
      | mk m r => by_cases hle : heap_le h m <;> simp [hle]

/-- `popMin` removes one occurrence: the result is a permutation
decomposition of the heap. -/
theorem popMin_perm (heap : List HeapTask) :
    ∀ m r, popMin heap = some (m, r) → heap.Perm (m :: r) := by
  induction heap with
  | nil => intro m r h; simp [popMin] at h
  | cons h t ih =>
    intro m r hp
    simp only [popMin] at hp
    cases hpt : popMin t with
    | none =>
      rw [hpt] at hp
      simp at hp
      rw [← hp.1, ← hp.2]
    | some mr =>
      cases mr with
      | mk m2 r2 =>
        rw [hpt] at hp
        by_cases hle : heap_le h m2
        · simp [hle] at hp
          rw [← hp.1, ← hp.2]
        · simp [hle] at hp
          have hperm := ih m2 r2 hpt
          rw [← hp.1, ← hp.2]
          exact List.Perm.trans (List.Perm.cons h hperm) (List.Perm.swap m2 h r2)

/-- `heap_le` is reflexive. -/
theorem heap_le_refl (a : HeapTask) : heap_le a a = true := by
  unfold heap_le
  simp

/-- `heap_le` is total. -/
theorem heap_le_total (a b : HeapTask) :
    heap_le a b = true ∨ heap_le b a = true := by
  unfold heap_le
  rcases lt_trichotomy a.manual_order b.manual_order with h | h | h
  · left; simp [h]
  · rcases le_total a.task_id b.task_id with h2 | h2
    · left; simp [h, h2]
    · right; simp [h.symm, h2]
  · right; simp [h]

/-- The element returned by `popMin` has a key no greater than every
heap element's. -/
theorem popMin_min (heap : List HeapTask) :
    ∀ m r, popMin heap = some (m, r) → ∀ x ∈ heap, heap_le m x = true := by
  induction heap with
  | nil => intro m r h; simp [popMin] at h
  | cons h t ih =>
    intro m r hp x hx
    simp only [popMin] at hp
    cases hpt : popMin t with
    | none =>
      rw [hpt] at hp
      have ht : t = [] := (popMin_eq_none t).mp hpt
      simp at hp
      rcases List.mem_cons.mp hx with hx | hx
      · rw [hx, ← hp.1]
        exact heap_le_refl h
      · rw [ht] at hx
        cases hx
    | some mr =>
      cases mr with
      | mk m2 r2 =>
        rw [hpt] at hp
        by_cases hle : heap_le h m2
        · simp [hle] at hp
          rcases List.mem_cons.mp hx with hx | hx
          · rw [hx, ← hp.1]
            exact heap_le_refl h
          · have h2 := ih m2 r2 hpt x hx
            rw [← hp.1]
            -- h ≤ m2 ≤ x
            unfold heap_le at hle h2 ⊢
            simp only [Bool.or_eq_true, Bool.and_eq_true, decide_eq_true_eq,
              beq_iff_eq] at hle h2 ⊢
            rcases hle with hle | ⟨hle1, hle2⟩
            · rcases h2 with h2 | ⟨h21, h22⟩
              · exact Or.inl (lt_trans hle h2)
              · exact Or.inl (h21 ▸ hle)
            · rcases h2 with h2 | ⟨h21, h22⟩
              · exact Or.inl (hle1 ▸ h2)
              · exact Or.inr ⟨hle1.trans h21, le_trans hle2 h22⟩
        · simp [hle] at hp
          rcases List.mem_cons.mp hx with hx | hx
          · rw [hx, ← hp.1]
            rcases heap_le_total h m2 with h3 | h3
            · exact absurd h3 (by simpa using hle)
            · exact h3
          · rw [← hp.1]
            exact ih m2 r2 hpt x hx

/-- `find?` returns the unique element satisfying the predicate. -/
theorem find?_unique {α : Type} {p : α → Bool} {l : List α} {t : α}
    (ht : t ∈ l) (hp : p t = true) (huniq : ∀ u ∈ l, p u = true → u = t) :
    l.find? p = some t := by
  induction l with
  | nil => cases ht
  | cons u l ih =>
    by_cases hu : p u = true
    · have := huniq u (List.mem_cons_self u l) hu
      rw [List.find?_cons_of_pos _ hu, this]
    · rw [List.find?_cons_of_neg _ (by simpa using hu)]
      rcases List.mem_cons.mp ht with h | h
      · rw [← h] at hu
        exact absurd hp hu
      · exact ih h (fun v hv hpv => huniq v (List.mem_cons_of_mem u hv) hpv)

/-- With duplicate-free ids, the task map resolves an id of a member
task to that task. -/
theorem task_map_get_of_nodup (tasks : List Task)
    (h1 : (tasks.map Task.id).Nodup) (t : Task) (ht : t ∈ tasks) :
    task_map_get tasks t.id = some t := by
  unfold task_map_get
  apply find?_unique (List.mem_reverse.mpr ht) (by simp)
  intro u hu hpu
  have hu2 : u ∈ tasks := List.mem_reverse.mp hu
  have heq : u.id = t.id := by simpa using hpu
  exact List.inj_on_of_nodup_map h1 hu2 ht heq

/-- The number of not-yet-satisfied in-set dependencies of `x`: edge
rows `(x, d)` of `EL` whose dependency `d` has not been emitted. -/
def rem_count (EL : List (Int × Int)) (em : List Int) (x : Int) : Nat :=
  (EL.filter (fun e => e.1 == x && !(decide (e.2 ∈ em)))).length

/-- Splitting a filtered length by an extra Boolean condition. -/
theorem length_filter_split {α : Type} (l : List α) (p q : α → Bool) :
    (l.filter p).length =
      (l.filter (fun a => p a && q a)).length +
        (l.filter (fun a => p a && !q a)).length := by
  induction l with
  | nil => simp
  | cons a l ih =>
    by_cases hp : p a = true <;> by_cases hq : q a = true <;>
      simp [hp, hq, ih] <;> omega

/-- Emitting a fresh task `d` splits the remaining-dependency count into
the count afterwards plus the number of `(x, d)` rows. -/
theorem rem_count_snoc (EL : List (Int × Int)) (em : List Int) (d : Int)
    (hd : d ∉ em) (x : Int) :
    rem_count EL em x =
      rem_count EL (em ++ [d]) x +
        (EL.filter (fun e => e.1 == x && e.2 == d)).length := by
  unfold rem_count
  rw [length_filter_split EL (fun e => e.1 == x && !(decide (e.2 ∈ em)))
    (fun e => e.2 == d)]
  rw [Nat.add_comm]
  congr 1
  · apply congrArg List.length
    apply List.filter_congr
    intro e _
    by_cases h2 : e.2 = d
    · have h3 : e.2 ∉ em := by rw [h2]; exact hd
      simp [h2, h3]
    · simp [h2]
  · apply congrArg List.length
    apply List.filter_congr
    intro e _
    by_cases h2 : e.2 = d
    · have h3 : e.2 ∉ em := by rw [h2]; exact hd
      simp [h2, h3]
      exact fun _ => hd
    · by_cases h3 : e.2 ∈ em <;> simp [h2, h3]

/-- The multiplicity of a dependent `x` in the adjacency row of `d`
equals the number of `(x, d)` edge rows. -/
theorem count_adj_eq (EL : List (Int × Int)) (d x : Int) :
    ((EL.filter (fun e => e.2 == d)).map (fun e => e.1)).count x =
      (EL.filter (fun e => e.1 == x && e.2 == d)).length := by
  induction EL with
  | nil => simp
  | cons e EL ih =>
    by_cases h2 : e.2 = d
    · by_cases h1 : e.1 = x
      · simp [h1, h2, List.count_cons, ih]
      · simp [h2, List.count_cons, ih, h1, Ne.symm h1]
    · simp [h2, ih]

/-- Effect of `kahn_process` on a dependent list `ds` whose every entry
resolves in the task map and whose multiplicities do not exceed the
current in-degrees: in-degrees drop by the multiplicities, and exactly
the dependents whose in-degree reaches zero are pushed, each once, with
its task's `manual_order`. -/
theorem kahn_process_spec (tasks : List Task) :
    ∀ (ds : List Int) (heap : List HeapTask) (indeg : Int → Nat),
      (∀ x ∈ ds, (task_map_get tasks x).isSome) →
      (∀ x, ds.count x ≤ indeg x) →
      (∀ x, (kahn_process tasks ds heap indeg).2 x = indeg x - ds.count x) ∧
      ∃ pushed, (kahn_process tasks ds heap indeg).1 = pushed ++ heap ∧
        (∀ h ∈ pushed, h.task_id ∈ ds ∧
          ∃ t, task_map_get tasks h.task_id = some t ∧
            h.manual_order = t.manual_order) ∧
        (∀ x, (pushed.map HeapTask.task_id).count x =
          if indeg x ≠ 0 ∧ indeg x = ds.count x then 1 else 0) := by
  intro ds
  induction ds with
  | nil =>
    intro heap indeg hds hle
    refine ⟨by intro x; simp [kahn_process], [], by simp [kahn_process], by simp, ?_⟩
    intro x
    simp
  | cons d rest ih =>
    intro heap indeg hds hle
    have hdcount : 1 ≤ indeg d := by
      have := hle d
      have h2 : 1 ≤ (d :: rest).count d := by simp [List.count_cons]
      omega
    have hlk : (task_map_get tasks d).isSome :=
      hds d (List.mem_cons_self d rest)
    cases hlkt : task_map_get tasks d with
    | none => rw [hlkt] at hlk; cases hlk
    | some t =>
      have hstep : kahn_process tasks (d :: rest) heap indeg =
          kahn_process tasks rest
            (if indeg d - 1 = 0 then
              { manual_order := t.manual_order, task_id := d } :: heap else heap)
            (fun x => if x = d then indeg d - 1 else indeg x) := by
        simp only [kahn_process, hlkt]
      set indeg2 := fun x => if x = d then indeg d - 1 else indeg x with hindeg2
      set heap2 := (if indeg d - 1 = 0 then
          { manual_order := t.manual_order, task_id := d } :: heap else heap) with hheap2
      have hds2 : ∀ x ∈ rest, (task_map_get tasks x).isSome :=
        fun x hx => hds x (List.mem_cons_of_mem d hx)
      have hle2 : ∀ x, rest.count x ≤ indeg2 x := by
        intro x
        by_cases hx : x = d
        · subst hx
          have := hle x
          have h2 : (x :: rest).count x = rest.count x + 1 := by
            simp [List.count_cons]
          simp [hindeg2]
          omega
        · have := hle x
          have h2 : (d :: rest).count x = rest.count x := by
            simp [List.count_cons, hx]
          simp [hindeg2, hx]
          omega
      obtain ⟨hind, pushed2, hheq, hpushed_ok, hpushed_cnt⟩ :=
        ih heap2 indeg2 hds2 hle2
      constructor
      · intro x
        rw [hstep, hind x]
        by_cases hx : x = d
        · subst hx
          have h2 : (x :: rest).count x = rest.count x + 1 := by
            simp [List.count_cons]
          simp [hindeg2]
          omega
        · have h2 : (d :: rest).count x = rest.count x := by
            simp [List.count_cons, hx]
          simp [hindeg2, hx, h2]
      · refine ⟨pushed2 ++ (if indeg d - 1 = 0 then
            [{ manual_order := t.manual_order, task_id := d }] else []), ?_, ?_, ?_⟩
        · rw [hstep, hheq, hheap2]
          by_cases hz : indeg d - 1 = 0 <;> simp [hz]
        · intro h hh
          rcases List.mem_append.mp hh with hh | hh
          · obtain ⟨hin, t2, hlk2, hord⟩ := hpushed_ok h hh
            exact ⟨List.mem_cons_of_mem d hin, t2, hlk2, hord⟩
          · by_cases hz : indeg d - 1 = 0
            · rw [if_pos hz] at hh
              simp at hh
              subst hh
              exact ⟨List.mem_cons_self d rest, t, hlkt, rfl⟩
            · rw [if_neg hz] at hh
              cases hh
        · intro x
          have hrec := hpushed_cnt x
          rw [List.map_append, List.count_append, hrec]
          by_cases hx : x = d
          · subst hx
            have hcr : (x :: rest).count x = rest.count x + 1 := by
              simp [List.count_cons]
            by_cases hz : indeg x - 1 = 0
            · have hone : indeg x = 1 := by omega
              have hzero : rest.count x = 0 := by
                have := hle2 x
                simp [hindeg2] at this
                omega
              rw [if_pos hz]
              have hc2 : ¬(indeg2 x ≠ 0 ∧ indeg2 x = rest.count x) := by
                simp [hindeg2]
                omega
              rw [if_neg hc2]
              have hc3 : (indeg x ≠ 0 ∧ indeg x = (x :: rest).count x) ↔
                  (rest.count x = 0) := by
                constructor
                · intro hcon; omega
                · intro hcon; omega
              simp [hc3, hzero, hcr, hone]
            · rw [if_neg hz]
              have h2 : indeg x ≥ 2 := by omega
              have hiff : (indeg2 x ≠ 0 ∧ indeg2 x = rest.count x) ↔
                  (indeg x ≠ 0 ∧ indeg x = (x :: rest).count x) := by
                simp [hindeg2, hcr]
                omega
              by_cases hcond : indeg2 x ≠ 0 ∧ indeg2 x = rest.count x
              · rw [if_pos hcond, if_pos (hiff.mp hcond)]
                simp
              · rw [if_neg hcond, if_neg (fun hcc => hcond (hiff.mpr hcc))]
                simp
          · have hcr : (d :: rest).count x = rest.count x := by
              simp [List.count_cons, hx]
            have hieq : indeg2 x = indeg x := by simp [hindeg2, hx]
            have hextra : ((if indeg d - 1 = 0 then
                [{ manual_order := t.manual_order, task_id := d }] else
                []).map HeapTask.task_id).count x = 0 := by
              by_cases hz : indeg d - 1 = 0
              · simp [hz, hx]
              · simp [hz]
            rw [hextra, hieq, hcr]
            omega

/-- A zero remaining-dependency count means every dependency edge of `x`
points into the emitted list. -/
theorem rem_count_zero_iff (EL : List (Int × Int)) (em : List Int) (x : Int) :
    rem_count EL em x = 0 ↔ ∀ e ∈ EL, e.1 = x → e.2 ∈ em := by
  unfold rem_count
  rw [List.length_eq_zero, List.filter_eq_nil_iff]
  constructor
  · intro h e he h1
    have := h e he
    simp [h1] at this
    exact this
  · intro h e he
    by_cases h1 : e.1 = x
    · simp [h1, h e he h1]
    · simp [h1]

/-- Growing the emitted list cannot increase a remaining count. -/
theorem rem_count_le_mono (EL : List (Int × Int)) (em : List Int) (d : Int)
    (hd : d ∉ em) (x : Int) :
    rem_count EL (em ++ [d]) x ≤ rem_count EL em x := by
  rw [rem_count_snoc EL em d hd x]
  omega

/-- Decomposing a split of a snoc list. -/
theorem snoc_split {α : Type} (l : List α) (t : α) :
    ∀ pre t0 post, l ++ [t] = pre ++ t0 :: post →
      (pre = l ∧ t0 = t ∧ post = []) ∨
      ∃ post0, l = pre ++ t0 :: post0 ∧ post = post0 ++ [t] := by
  intro pre t0 post
  induction post using List.reverseRecOn with
  | nil =>
    intro h
    left
    have h2 : l ++ [t] = pre ++ [t0] := by simpa using h
    have hlen : l.length = pre.length := by
      have := congrArg List.length h2
      simp at this
      omega
    obtain ⟨h3, h4⟩ := List.append_inj h2 (by omega)
    refine ⟨h3.symm, ?_, rfl⟩
    simpa using h4.symm
  | append_singleton post0 last ih =>
    intro h
    right
    have h2 : l ++ [t] = (pre ++ t0 :: post0) ++ [last] := by
      simp at h ⊢
      exact h
    obtain ⟨h3, h4⟩ := List.append_inj h2 (by
      have hlen := congrArg List.length h2
      simp at hlen ⊢
      omega)
    refine ⟨post0, by simpa using h3, ?_⟩
    have : t = last := by simpa using h4
    rw [this]

/-- `task_map_get` only returns members with the looked-up id. -/
theorem task_map_get_mem (tasks : List Task) (x : Int) (t : Task)
    (h : task_map_get tasks x = some t) : t ∈ tasks ∧ t.id = x := by
  unfold task_map_get at h
  have h1 := List.find?_some h
  have h2 := List.mem_reverse.mp (List.mem_of_find?_eq_some h)
  exact ⟨h2, by simpa using h1⟩

/-- The scheduler's invariant for Kahn's loop.  `emitted` are the tasks
output so far (oldest first), `heap` the pending frontier, `indeg` the
current in-degree map; `EL` is the restricted dependency-edge list. -/
structure KahnInv (tasks : List Task) (EL : List (Int × Int)) (emitted : List Task)
    (heap : List HeapTask) (indeg : Int → Nat) : Prop where
  emitted_mem : ∀ t ∈ emitted, t ∈ tasks
  heap_mem : ∀ h ∈ heap, ∃ t ∈ tasks, t.id = h.task_id ∧ h.manual_order = t.manual_order
  nodup_ids : (emitted.map Task.id ++ heap.map HeapTask.task_id).Nodup
  indeg_eq : ∀ x, indeg x = rem_count EL (emitted.map Task.id) x
  emitted_done : ∀ t ∈ emitted, rem_count EL (emitted.map Task.id) t.id = 0
  heap_iff : ∀ x ∈ tasks.map Task.id, x ∉ emitted.map Task.id →
    (x ∈ heap.map HeapTask.task_id ↔ rem_count EL (emitted.map Task.id) x = 0)
  emitted_topo : ∀ e ∈ EL, ∀ pre t post, emitted = pre ++ t :: post → t.id = e.1 →
    e.2 ∈ pre.map Task.id
  emitted_min : ∀ pre t post, emitted = pre ++ t :: post →
    ∀ u ∈ tasks, u.id ∉ pre.map Task.id →
    rem_count EL (pre.map Task.id) u.id = 0 →
    heap_le { manual_order := t.manual_order, task_id := t.id }
      { manual_order := u.manual_order, task_id := u.id } = true

/-- One iteration of the Kahn loop preserves the invariant: the popped
entry resolves to its task, which is emitted, and processing its
dependents yields a state satisfying the invariant again. -/
theorem kahn_step_inv (tasks : List Task) (EL : List (Int × Int))
    (adjf : Int → List Int)
    (HN : (tasks.map Task.id).Nodup)
    (HE : ∀ e ∈ EL, e.1 ∈ tasks.map Task.id ∧ e.2 ∈ tasks.map Task.id)
    (HA : ∀ d, adjf d = (EL.filter (fun e => e.2 == d)).map (fun e => e.1))
    (emitted : List Task) (heap : List HeapTask) (indeg : Int → Nat)
    (m : HeapTask) (rest : List HeapTask)
    (hinv : KahnInv tasks EL emitted heap indeg)
    (hpop : popMin heap = some (m, rest)) :
    ∃ t, task_map_get tasks m.task_id = some t ∧
      KahnInv tasks EL (emitted ++ [t])
        (kahn_process tasks (adjf m.task_id) rest indeg).1
        (kahn_process tasks (adjf m.task_id) rest indeg).2 := by
  have hperm := popMin_perm heap m rest hpop
  have hmheap : m ∈ heap := hperm.mem_iff.mpr (List.mem_cons_self m rest)
  obtain ⟨t, htmem, htid, hord⟩ := hinv.heap_mem m hmheap
  have hlk : task_map_get tasks m.task_id = some t := by
    rw [← htid]
    exact task_map_get_of_nodup tasks HN t htmem
  refine ⟨t, hlk, ?_⟩
  -- id-level bookkeeping
  have hperm_ids : (heap.map HeapTask.task_id).Perm
      (m.task_id :: rest.map HeapTask.task_id) := hperm.map HeapTask.task_id
  have hnodup2 : (emitted.map Task.id ++
      (m.task_id :: rest.map HeapTask.task_id)).Nodup :=
    ((List.Perm.append_left (emitted.map Task.id) hperm_ids).nodup_iff).mp
      hinv.nodup_ids
  have hem_nodup : (emitted.map Task.id).Nodup :=
    (List.nodup_append.mp hnodup2).1
  have hdisj : ∀ x ∈ emitted.map Task.id,
      x ∉ m.task_id :: rest.map HeapTask.task_id :=
    (List.nodup_append.mp hnodup2).2.2
  have hmrest_nodup : (m.task_id :: rest.map HeapTask.task_id).Nodup :=
    (List.nodup_append.mp hnodup2).2.1
  have hm_nin_em : m.task_id ∉ emitted.map Task.id := by
    intro hcon
    exact hdisj _ hcon (List.mem_cons_self _ _)
  have hm_nin_rest : m.task_id ∉ rest.map HeapTask.task_id :=
    (List.nodup_cons.mp hmrest_nodup).1
  have hrest_nodup : (rest.map HeapTask.task_id).Nodup :=
    (List.nodup_cons.mp hmrest_nodup).2
  -- every id on the heap has a zero remaining count
  have hheap_in_set : ∀ x ∈ heap.map HeapTask.task_id, x ∈ tasks.map Task.id := by
    intro x hx
    obtain ⟨h, hh, hhx⟩ := List.mem_map.mp hx
    obtain ⟨tk, htk, htkid, _⟩ := hinv.heap_mem h hh
    exact List.mem_map.mpr ⟨tk, htk, by rw [htkid, hhx]⟩
  have hheap_nin_em : ∀ x ∈ heap.map HeapTask.task_id,
      x ∉ emitted.map Task.id := by
    intro x hx hcon
    have hx2 : x ∈ m.task_id :: rest.map HeapTask.task_id :=
      hperm_ids.mem_iff.mp hx
    exact hdisj x hcon hx2
  have hheap_rem0 : ∀ x ∈ heap.map HeapTask.task_id,
      rem_count EL (emitted.map Task.id) x = 0 := by
    intro x hx
    exact (hinv.heap_iff x (hheap_in_set x hx) (hheap_nin_em x hx)).mp hx
  have hm_rem0 : rem_count EL (emitted.map Task.id) m.task_id = 0 :=
    hheap_rem0 m.task_id (List.mem_map.mpr ⟨m, hmheap, rfl⟩)
  -- the dependent list and the process-spec facts
  have hds_eq : adjf m.task_id =
      (EL.filter (fun e => e.2 == m.task_id)).map (fun e => e.1) := HA m.task_id
  have hds_some : ∀ x ∈ adjf m.task_id, (task_map_get tasks x).isSome := by
    intro x hx
    rw [hds_eq] at hx
    obtain ⟨e, he, hex⟩ := List.mem_map.mp hx
    have hx_set : x ∈ tasks.map Task.id := by
      rw [← hex]
      exact (HE e (List.mem_of_mem_filter he)).1
    obtain ⟨u, hu, huid⟩ := List.mem_map.mp hx_set
    rw [← huid, task_map_get_of_nodup tasks HN u hu]
    rfl
  have hcount_ds : ∀ x, (adjf m.task_id).count x =
      (EL.filter (fun e => e.1 == x && e.2 == m.task_id)).length := by
    intro x
    rw [hds_eq]
    exact count_adj_eq EL m.task_id x
  have hsnoc : ∀ x, rem_count EL (emitted.map Task.id) x =
      rem_count EL (emitted.map Task.id ++ [m.task_id]) x +
        (EL.filter (fun e => e.1 == x && e.2 == m.task_id)).length :=
    rem_count_snoc EL (emitted.map Task.id) m.task_id hm_nin_em
  have hle2 : ∀ x, (adjf m.task_id).count x ≤ indeg x := by
    intro x
    rw [hcount_ds x, hinv.indeg_eq x, hsnoc x]
    omega
  obtain ⟨hind2, pushed, hheap2, hpush_ok, hpush_cnt⟩ :=
    kahn_process_spec tasks (adjf m.task_id) rest indeg hds_some hle2
  -- the new emitted id list
  have hem' : (emitted ++ [t]).map Task.id =
      emitted.map Task.id ++ [m.task_id] := by
    rw [List.map_append]
    simp [htid]
  have hindeg2 : ∀ x, (kahn_process tasks (adjf m.task_id) rest indeg).2 x =
      rem_count EL ((emitted ++ [t]).map Task.id) x := by
    intro x
    rw [hind2 x, hinv.indeg_eq x, hcount_ds x, hem', hsnoc x]
    omega
  -- characterization of the pushed ids
  have hpush_char : ∀ x ∈ pushed.map HeapTask.task_id,
      rem_count EL (emitted.map Task.id) x ≠ 0 ∧
      rem_count EL ((emitted ++ [t]).map Task.id) x = 0 := by
    intro x hx
    have hc : 0 < (pushed.map HeapTask.task_id).count x :=
      List.count_pos_iff.mpr hx
    rw [hpush_cnt x] at hc
    by_cases hcond : indeg x ≠ 0 ∧ indeg x = (adjf m.task_id).count x
    · obtain ⟨h1, h2⟩ := hcond
      rw [hinv.indeg_eq x] at h1 h2
      rw [hcount_ds x] at h2
      refine ⟨h1, ?_⟩
      rw [hem']
      have := hsnoc x
      omega
    · rw [if_neg hcond] at hc
      omega
  have hpush_in_set : ∀ x ∈ pushed.map HeapTask.task_id,
      x ∈ tasks.map Task.id := by
    intro x hx
    obtain ⟨h, hh, hhx⟩ := List.mem_map.mp hx
    obtain ⟨hin, tk, hlk2, _⟩ := hpush_ok h hh
    obtain ⟨htk, htkid⟩ := task_map_get_mem tasks h.task_id tk hlk2
    exact List.mem_map.mpr ⟨tk, htk, by rw [htkid, hhx]⟩
  have hpush_nodup : (pushed.map HeapTask.task_id).Nodup := by
    rw [List.nodup_iff_count_le_one]
    intro x
    rw [hpush_cnt x]
    by_cases hcond : indeg x ≠ 0 ∧ indeg x = (adjf m.task_id).count x
    · rw [if_pos hcond]
    · rw [if_neg hcond]
      omega
  have hrest_rem0 : ∀ x ∈ rest.map HeapTask.task_id,
      rem_count EL (emitted.map Task.id) x = 0 := by
    intro x hx
    exact hheap_rem0 x (hperm_ids.mem_iff.mpr (List.mem_cons_of_mem _ hx))
  constructor
  · -- emitted_mem
    intro u hu
    rcases List.mem_append.mp hu with hu | hu
    · exact hinv.emitted_mem u hu
    · simp at hu
      rw [hu]
      exact htmem
  · -- heap_mem
    intro h hh
    rw [hheap2] at hh
    rcases List.mem_append.mp hh with hh | hh
    · obtain ⟨hin, tk, hlk2, hord2⟩ := hpush_ok h hh
      obtain ⟨htk, htkid⟩ := task_map_get_mem tasks h.task_id tk hlk2
      exact ⟨tk, htk, htkid, hord2⟩
    · exact hinv.heap_mem h (hperm.mem_iff.mpr (List.mem_cons_of_mem m hh))
  · -- nodup_ids
    rw [hheap2, hem']
    rw [List.map_append]
    apply List.nodup_append.mpr
    refine ⟨?_, ?_, ?_⟩
    · apply List.nodup_append.mpr
      refine ⟨hem_nodup, List.nodup_singleton _, ?_⟩
      intro x hx
      simp
      intro hcon
      rw [hcon] at hx
      exact hm_nin_em hx
    · apply List.nodup_append.mpr
      refine ⟨hpush_nodup, hrest_nodup, ?_⟩
      intro x hx hcon
      exact (hpush_char x hx).1 (hrest_rem0 x hcon)
    · intro x hx hcon
      rcases List.mem_append.mp hcon with hcon | hcon
      · -- x pushed: its remaining count was nonzero
        have hx2 : rem_count EL (emitted.map Task.id) x ≠ 0 :=
          (hpush_char x hcon).1
        rcases List.mem_append.mp hx with hx | hx
        · obtain ⟨u, hu, huid⟩ := List.mem_map.mp hx
          exact hx2 (huid ▸ hinv.emitted_done u hu)
        · simp at hx
          rw [hx] at hx2
          exact hx2 hm_rem0
      · -- x on the old frontier
        rcases List.mem_append.mp hx with hx | hx
        · exact hdisj x hx (List.mem_cons_of_mem _ hcon)
        · simp at hx
          rw [hx] at hcon
          exact hm_nin_rest hcon
  · -- indeg_eq
    exact hindeg2
  · -- emitted_done
    intro u hu
    rcases List.mem_append.mp hu with hu | hu
    · have h0 := hinv.emitted_done u hu
      have hmono := rem_count_le_mono EL (emitted.map Task.id) m.task_id
        hm_nin_em u.id
      rw [hem']
      omega
    · simp at hu
      rw [hu, htid, hem']
      have hmono := rem_count_le_mono EL (emitted.map Task.id) m.task_id
        hm_nin_em m.task_id
      omega
  · -- heap_iff
    intro x hxset hxnem
    have hxnem0 : x ∉ emitted.map Task.id := by
      intro hcon
      apply hxnem
      rw [hem']
      exact List.mem_append_left _ hcon
    have hxne_m : x ≠ m.task_id := by
      intro hcon
      apply hxnem
      rw [hem', hcon]
      simp
    rw [hheap2, List.map_append]
    constructor
    · intro hx
      rcases List.mem_append.mp hx with hx | hx
      · exact (hpush_char x hx).2
      · have h0 := hrest_rem0 x hx
        rw [hem']
        have hmono := rem_count_le_mono EL (emitted.map Task.id) m.task_id
          hm_nin_em x
        omega
    · intro hx
      by_cases h0 : rem_count EL (emitted.map Task.id) x = 0
      · have hmem := (hinv.heap_iff x hxset hxnem0).mpr h0
        have hx2 : x ∈ m.task_id :: rest.map HeapTask.task_id :=
          hperm_ids.mem_iff.mp hmem
        rcases List.mem_cons.mp hx2 with hx2 | hx2
        · exact absurd hx2 hxne_m
        · exact List.mem_append_right _ hx2
      · apply List.mem_append_left
        have hcond : indeg x ≠ 0 ∧ indeg x = (adjf m.task_id).count x := by
          rw [hinv.indeg_eq x, hcount_ds x]
          rw [hem'] at hx
          have := hsnoc x
          omega
        have : 0 < (pushed.map HeapTask.task_id).count x := by
          rw [hpush_cnt x, if_pos hcond]
          omega
        exact List.count_pos_iff.mp this
  · -- emitted_topo
    intro e he pre t0 post hsplit ht0
    rcases snoc_split emitted t pre t0 post hsplit with ⟨hp, ht2, _⟩ | ⟨post0, hsp, _⟩
    · rw [ht2] at ht0
      rw [hp]
      rw [htid] at ht0
      have := (rem_count_zero_iff EL (emitted.map Task.id) m.task_id).mp hm_rem0
      exact this e he (by rw [ht0])
    · exact hinv.emitted_topo e he pre t0 post0 hsp ht0
  · -- emitted_min
    intro pre t0 post hsplit u hu hunem hurem
    rcases snoc_split emitted t pre t0 post hsplit with ⟨hp, ht2, _⟩ | ⟨post0, hsp, _⟩
    · subst hp
      subst ht2
      -- u was eligible now, hence on the heap; popMin picked the minimum
      have huset : u.id ∈ tasks.map Task.id := List.mem_map.mpr ⟨u, hu, rfl⟩
      have humem := (hinv.heap_iff u.id huset hunem).mpr hurem
      obtain ⟨h, hh, hhid⟩ := List.mem_map.mp humem
      obtain ⟨tk, htk, htkid, hord2⟩ := hinv.heap_mem h hh
      have htku : tk = u :=
        List.inj_on_of_nodup_map HN htk hu (by rw [htkid, hhid])
      have hh_eq : h = { manual_order := u.manual_order, task_id := u.id } := by
        cases h with
        | mk mo ti =>
          simp at hhid ⊢
          rw [htku] at hord2
          simp at hord2
          exact ⟨hord2, hhid⟩
      have hmin := popMin_min heap m rest hpop h hh
      rw [hh_eq] at hmin
      have hm_eq : m = { manual_order := t0.manual_order, task_id := t0.id } := by
        cases m with
        | mk mo ti =>
          have h1 : mo = t0.manual_order := hord
          have h2 : ti = t0.id := htid.symm
          rw [h1, h2]
      rw [hm_eq] at hmin
      exact hmin
    · exact hinv.emitted_min pre t0 post0 hsp u hu hunem hurem

/-- Draining the loop from an invariant state with enough fuel produces
an invariant state with an empty frontier. -/
theorem kahn_loop_inv (tasks : List Task) (EL : List (Int × Int))
    (adjf : Int → List Int)
    (HN : (tasks.map Task.id).Nodup)
    (HE : ∀ e ∈ EL, e.1 ∈ tasks.map Task.id ∧ e.2 ∈ tasks.map Task.id)
    (HA : ∀ d, adjf d = (EL.filter (fun e => e.2 == d)).map (fun e => e.1)) :
    ∀ fuel (heap : List HeapTask) (indeg : Int → Nat) (emitted : List Task),
      KahnInv tasks EL emitted heap indeg →
      tasks.length ≤ emitted.length + fuel →
      KahnInv tasks EL (emitted ++ kahn_loop tasks adjf fuel heap indeg) []
        (fun x => rem_count EL
          ((emitted ++ kahn_loop tasks adjf fuel heap indeg).map Task.id) x) := by
  intro fuel
  induction fuel with
  | zero =>
    intro heap indeg emitted hinv hlen
    have hout : kahn_loop tasks adjf 0 heap indeg = [] := rfl
    rw [hout, List.append_nil]
    refine ⟨hinv.emitted_mem, ?_, ?_, fun x => rfl, hinv.emitted_done, ?_,
      hinv.emitted_topo, hinv.emitted_min⟩
    · intro h hh
      cases hh
    · rw [List.map_nil, List.append_nil]
      exact (List.nodup_append.mp hinv.nodup_ids).1
    · -- with fuel exhausted the emitted list already covers every task
      intro x hxset hxnem
      exfalso
      have hem_nodup : (emitted.map Task.id).Nodup :=
        (List.nodup_append.mp hinv.nodup_ids).1
      have hsub : (emitted.map Task.id).toFinset ⊆
          ((tasks.map Task.id).toFinset.erase x) := by
        intro y hy
        have hy2 : y ∈ emitted.map Task.id := List.mem_toFinset.mp hy
        apply Finset.mem_erase.mpr
        refine ⟨?_, ?_⟩
        · intro hcon
          rw [hcon] at hy2
          exact hxnem hy2
        · obtain ⟨u, hu, huid⟩ := List.mem_map.mp hy2
          exact List.mem_toFinset.mpr
            (List.mem_map.mpr ⟨u, hinv.emitted_mem u hu, huid⟩)
      have hcard := Finset.card_le_card hsub
      rw [Finset.card_erase_of_mem (List.mem_toFinset.mpr hxset)] at hcard
      rw [List.toFinset_card_of_nodup hem_nodup,
        List.toFinset_card_of_nodup HN] at hcard
      have hpos : 0 < (tasks.map Task.id).length := List.length_pos_of_mem hxset
      simp at hcard hpos
      omega
  | succ fuel ih =>
    intro heap indeg emitted hinv hlen
    cases hpop : popMin heap with
    | none =>
      have hheap : heap = [] := (popMin_eq_none heap).mp hpop
      have hout : kahn_loop tasks adjf (fuel + 1) heap indeg = [] := by
        simp only [kahn_loop, hpop]
      rw [hout, List.append_nil]
      refine ⟨hinv.emitted_mem, ?_, ?_, fun x => rfl, hinv.emitted_done, ?_,
        hinv.emitted_topo, hinv.emitted_min⟩
      · intro h hh
        cases hh
      · rw [List.map_nil, List.append_nil]
        exact (List.nodup_append.mp hinv.nodup_ids).1
      · intro x hxset hxnem
        have := hinv.heap_iff x hxset hxnem
        rw [hheap] at this
        simp at this
        simp [this]
    | some mr =>
      cases mr with
      | mk m rest =>
        obtain ⟨t, hlk, hinv2⟩ := kahn_step_inv tasks EL adjf HN HE HA
          emitted heap indeg m rest hinv hpop
        have hout : kahn_loop tasks adjf (fuel + 1) heap indeg =
            t :: kahn_loop tasks adjf fuel
              (kahn_process tasks (adjf m.task_id) rest indeg).1
              (kahn_process tasks (adjf m.task_id) rest indeg).2 := by
          simp only [kahn_loop, hpop, hlk]
        rw [hout]
        have hassoc : emitted ++ t :: kahn_loop tasks adjf fuel
            (kahn_process tasks (adjf m.task_id) rest indeg).1
            (kahn_process tasks (adjf m.task_id) rest indeg).2 =
            (emitted ++ [t]) ++ kahn_loop tasks adjf fuel
              (kahn_process tasks (adjf m.task_id) rest indeg).1
              (kahn_process tasks (adjf m.task_id) rest indeg).2 := by
          simp
        rw [hassoc]
        apply ih _ _ (emitted ++ [t]) hinv2
        simp
        omega

/-- The seeded initial state of Kahn's algorithm satisfies the loop
invariant, provided the initial in-degree map counts exactly the in-set
dependency rows. -/
theorem kahn_init_inv (tasks : List Task) (EL : List (Int × Int))
    (indeg0 : Int → Nat)
    (HN : (tasks.map Task.id).Nodup)
    (HI : ∀ x, indeg0 x = rem_count EL [] x) :
    KahnInv tasks EL []
      ((tasks.filter (fun t => indeg0 t.id == 0)).map
        (fun t => { manual_order := t.manual_order, task_id := t.id }))
      indeg0 := by
  have hcomp : (HeapTask.task_id ∘ fun t =>
      ({ manual_order := t.manual_order, task_id := t.id } : HeapTask)) = Task.id := rfl
  refine ⟨?_, ?_, ?_, ?_, ?_, ?_, ?_, ?_⟩
  · intro t ht
    cases ht
  · intro h hh
    obtain ⟨t, ht, rfl⟩ := List.mem_map.mp hh
    exact ⟨t, List.mem_of_mem_filter ht, rfl, rfl⟩
  · simp only [List.map_nil, List.nil_append, List.map_map, hcomp]
    exact ((List.filter_sublist tasks).map Task.id).nodup HN
  · intro x
    simp only [List.map_nil]
    exact HI x
  · intro t ht
    cases ht
  · intro x hxset hxnem
    simp only [List.map_nil, List.map_map, hcomp]
    constructor
    · intro hx
      obtain ⟨t, ht, htid⟩ := List.mem_map.mp hx
      have hp := List.of_mem_filter ht
      have hz : indeg0 t.id = 0 := by simpa using hp
      rw [← htid, ← HI]
      exact hz
    · intro hz
      obtain ⟨u, hu, huid⟩ := List.mem_map.mp hxset
      refine List.mem_map.mpr ⟨u, List.mem_filter.mpr ⟨hu, ?_⟩, huid⟩
      simp only [beq_iff_eq]
      rw [HI, huid]
      exact hz
  · intro e he pre t post hsp
    have := congrArg List.length hsp
    simp at this
    omega
  · intro pre t post hsp
    have := congrArg List.length hsp
    simp at this
    omega

/-- The full run of Kahn's algorithm lands in the invariant with an
empty frontier: the output is a duplicate-free selection of the input
tasks, in topological order, minimal at every emission, and with each
unemitted in-set task retaining a nonzero remaining count. -/
theorem kahn_run_inv (tasks : List Task) (EL : List (Int × Int))
    (adjf : Int → List Int) (indeg0 : Int → Nat)
    (HN : (tasks.map Task.id).Nodup)
    (HE : ∀ e ∈ EL, e.1 ∈ tasks.map Task.id ∧ e.2 ∈ tasks.map Task.id)
    (HA : ∀ d, adjf d = (EL.filter (fun e => e.2 == d)).map (fun e => e.1))
    (HI : ∀ x, indeg0 x = rem_count EL [] x) :
    KahnInv tasks EL (kahn_run tasks adjf indeg0) []
      (fun x => rem_count EL ((kahn_run tasks adjf indeg0).map Task.id) x) := by
  have h := kahn_loop_inv tasks EL adjf HN HE HA tasks.length
    ((tasks.filter (fun t => indeg0 t.id == 0)).map
      (fun t => { manual_order := t.manual_order, task_id := t.id }))
    indeg0 [] (kahn_init_inv tasks EL indeg0 HN HI) (by simp)
  simpa [kahn_run] using h

/-- Transitivity of reachability. -/
theorem reaches_trans (adj : Int → List Int) {a b c : Int}
    (h1 : Reaches adj a b) (h2 : Reaches adj b c) : Reaches adj a c := by
  induction h1 with
  | refl a => exact h2
  | head hmem hr ih => exact Reaches.head hmem (ih h2)

/-- The in-set dependency successors of `x`: the `d` of each edge row
`(x, d)` of the restricted edge list. -/
def dep_succ (EL : List (Int × Int)) (x : Int) : List Int :=
  (EL.filter (fun e => e.1 == x)).map (fun e => e.2)

/-- When the restricted edge set is acyclic (no edge's dependency
reaches back to its dependent), Kahn's run emits every input task: a
leftover task would have a leftover dependency, and following leftover
dependencies strictly shrinks the reachable set, which is finite. -/
theorem kahn_run_complete (tasks : List Task) (EL : List (Int × Int))
    (adjf : Int → List Int) (indeg0 : Int → Nat)
    (HN : (tasks.map Task.id).Nodup)
    (HE : ∀ e ∈ EL, e.1 ∈ tasks.map Task.id ∧ e.2 ∈ tasks.map Task.id)
    (HA : ∀ d, adjf d = (EL.filter (fun e => e.2 == d)).map (fun e => e.1))
    (HI : ∀ x, indeg0 x = rem_count EL [] x)
    (HAcyc : ∀ e ∈ EL, ¬ Reaches (dep_succ EL) e.2 e.1) :
    ∀ t ∈ tasks, t ∈ kahn_run tasks adjf indeg0 := by
  classical
  intro t ht
  by_contra hout
  have hinv := kahn_run_inv tasks EL adjf indeg0 HN HE HA HI
  have htid_nem : t.id ∉ (kahn_run tasks adjf indeg0).map Task.id := by
    intro hcon
    obtain ⟨u, hu, huid⟩ := List.mem_map.mp hcon
    have hu_tasks := hinv.emitted_mem u hu
    have h1 : task_map_get tasks u.id = some u :=
      task_map_get_of_nodup tasks HN u hu_tasks
    have h2 : task_map_get tasks t.id = some t :=
      task_map_get_of_nodup tasks HN t ht
    rw [huid] at h1
    rw [h1] at h2
    injection h2 with h3
    rw [h3] at hu
    exact hout hu
  have hU : ∀ x, x ∈ tasks.map Task.id →
      x ∉ (kahn_run tasks adjf indeg0).map Task.id →
      ∃ y, y ∈ tasks.map Task.id ∧
        y ∉ (kahn_run tasks adjf indeg0).map Task.id ∧ y ∈ dep_succ EL x := by
    intro x hxset hxnem
    have hiff := hinv.heap_iff x hxset hxnem
    have hrem : rem_count EL ((kahn_run tasks adjf indeg0).map Task.id) x ≠ 0 := by
      intro hz
      have hmem := hiff.mpr hz
      simp at hmem
    rw [Ne, rem_count_zero_iff] at hrem
    push_neg at hrem
    obtain ⟨e, he, he1, he2⟩ := hrem
    refine ⟨e.2, (HE e he).2, he2, ?_⟩
    exact List.mem_map.mpr ⟨e, List.mem_filter.mpr ⟨he, by simp [he1]⟩, rfl⟩
  have hdesc : ∀ n x, x ∈ tasks.map Task.id →
      x ∉ (kahn_run tasks adjf indeg0).map Task.id →
      ((tasks.map Task.id).toFinset.filter
        (fun y => Reaches (dep_succ EL) x y)).card ≤ n → False := by
    intro n
    induction n with
    | zero =>
      intro x hxset hxnem hcard
      have hxmem : x ∈ (tasks.map Task.id).toFinset.filter
          (fun y => Reaches (dep_succ EL) x y) :=
        Finset.mem_filter.mpr ⟨List.mem_toFinset.mpr hxset, Reaches.refl x⟩
      have := Finset.card_pos.mpr ⟨x, hxmem⟩
      omega
    | succ n ih =>
      intro x hxset hxnem hcard
      obtain ⟨y, hyset, hynem, hyadj⟩ := hU x hxset hxnem
      have hsub : (tasks.map Task.id).toFinset.filter
          (fun z => Reaches (dep_succ EL) y z) ⊆
          (tasks.map Task.id).toFinset.filter
          (fun z => Reaches (dep_succ EL) x z) := by
        intro z hz
        obtain ⟨hz1, hz2⟩ := Finset.mem_filter.mp hz
        exact Finset.mem_filter.mpr ⟨hz1, Reaches.head hyadj hz2⟩
      have hxin : x ∈ (tasks.map Task.id).toFinset.filter
          (fun z => Reaches (dep_succ EL) x z) :=
        Finset.mem_filter.mpr ⟨List.mem_toFinset.mpr hxset, Reaches.refl x⟩
      have hxnot : x ∉ (tasks.map Task.id).toFinset.filter
          (fun z => Reaches (dep_succ EL) y z) := by
        intro hcon
        have hr := (Finset.mem_filter.mp hcon).2
        obtain ⟨e, hef, he2⟩ := List.mem_map.mp hyadj
        have he := List.mem_filter.mp hef
        have he1 : e.1 = x := by simpa using he.2
        exact HAcyc e he.1 (by rw [he2, he1]; exact hr)
      have hlt : ((tasks.map Task.id).toFinset.filter
          (fun z => Reaches (dep_succ EL) y z)).card <
          ((tasks.map Task.id).toFinset.filter
          (fun z => Reaches (dep_succ EL) x z)).card := by
        apply Finset.card_lt_card
        rw [Finset.ssubset_iff_of_subset hsub]
        exact ⟨x, hxin, hxnot⟩
      exact ih y hyset hynem (by omega)
  exact hdesc ((tasks.map Task.id).toFinset.filter
      (fun y => Reaches (dep_succ EL) t.id y)).card t.id
    (List.mem_map.mpr ⟨t, ht, rfl⟩) htid_nem le_rfl

/-- On an acyclic restricted input, Kahn's run is a permutation of the
input task list: every task is emitted exactly once. -/
theorem kahn_run_perm (tasks : List Task) (EL : List (Int × Int))
    (adjf : Int → List Int) (indeg0 : Int → Nat)
    (HN : (tasks.map Task.id).Nodup)
    (HE : ∀ e ∈ EL, e.1 ∈ tasks.map Task.id ∧ e.2 ∈ tasks.map Task.id)
    (HA : ∀ d, adjf d = (EL.filter (fun e => e.2 == d)).map (fun e => e.1))
    (HI : ∀ x, indeg0 x = rem_count EL [] x)
    (HAcyc : ∀ e ∈ EL, ¬ Reaches (dep_succ EL) e.2 e.1) :
    (kahn_run tasks adjf indeg0).Perm tasks := by
  have hinv := kahn_run_inv tasks EL adjf indeg0 HN HE HA HI
  have hids : ((kahn_run tasks adjf indeg0).map Task.id).Nodup := by
    have h := hinv.nodup_ids
    simpa using h
  have hnodup_out : (kahn_run tasks adjf indeg0).Nodup :=
    List.Nodup.of_map Task.id hids
  have hnodup_tasks : tasks.Nodup := List.Nodup.of_map Task.id HN
  rw [List.perm_ext_iff_of_nodup hnodup_out hnodup_tasks]
  intro a
  exact ⟨fun h => hinv.emitted_mem a h,
    fun h => kahn_run_complete tasks EL adjf indeg0 HN HE HA HI HAcyc a h⟩

/-- The restricted dependency-edge list of a `(task, deps)` input: one
row `(task.id, d)` per dependency entry `d` that is itself in the set. -/
def twd_el (twd : List (Task × List Int)) : List (Int × Int) :=
  (twd.map (fun p => (p.2.filter (fun x => twd_mem twd x)).map (fun x => (p.1.id, x)))).flatten

/-- Generic form of the adjacency bridge, with the set-membership
predicate abstracted. -/
theorem twd_bridge_adj (d : Int) (mf : Int → Bool) :
    ∀ l : List (Task × List Int),
      (l.map (fun p => (p.2.filter (fun x => x == d && mf x)).map (fun _ => p.1.id))).flatten =
      ((l.map (fun p => (p.2.filter (fun x => mf x)).map (fun x => (p.1.id, x)))).flatten.filter
        (fun e => e.2 == d)).map (fun e => e.1) := by
  intro l
  induction l with
  | nil => rfl
  | cons p rest ih =>
    simp only [List.map_cons, List.flatten_cons, List.filter_append, List.map_append]
    rw [ih]
    congr 1
    obtain ⟨t0, ds⟩ := p
    induction ds with
    | nil => rfl
    | cons x xs ih2 =>
      by_cases h1 : (x == d) = true <;> by_cases h2 : mf x = true <;>
        simp [List.filter_cons, h1, h2] <;> simpa using ih2

/-- `twd_adj` is the `EL`-derived adjacency for `twd_el`. -/
theorem twd_adj_el (twd : List (Task × List Int)) (d : Int) :
    twd_adj twd d = ((twd_el twd).filter (fun e => e.2 == d)).map (fun e => e.1) := by
  unfold twd_adj twd_el
  exact twd_bridge_adj d (twd_mem twd) twd

/-- Generic form of the in-degree bridge. -/
theorem twd_bridge_indeg (x : Int) (mf : Int → Bool) :
    ∀ l : List (Task × List Int),
      ((l.filter (fun p => p.1.id == x)).map (fun p => (p.2.filter (fun y => mf y)).length)).sum =
      ((l.map (fun p => (p.2.filter (fun y => mf y)).map (fun y => (p.1.id, y)))).flatten.filter
        (fun e => e.1 == x)).length := by
  intro l
  induction l with
  | nil => rfl
  | cons p rest ih =>
    simp only [List.map_cons, List.flatten_cons, List.filter_append, List.length_append]
    by_cases hp : (p.1.id == x) = true
    · rw [List.filter_cons, if_pos hp]
      simp only [List.map_cons, List.sum_cons, ih]
      have hall : ((p.2.filter (fun y => mf y)).map (fun y => (p.1.id, y))).filter
          (fun e => e.1 == x) =
          (p.2.filter (fun y => mf y)).map (fun y => (p.1.id, y)) := by
        apply List.filter_eq_self.mpr
        intro a ha
        obtain ⟨y, hy, rfl⟩ := List.mem_map.mp ha
        exact hp
      rw [hall, List.length_map]
    · rw [List.filter_cons, if_neg hp]
      have hnone : ((p.2.filter (fun y => mf y)).map (fun y => (p.1.id, y))).filter
          (fun e => e.1 == x) = [] := by
        apply List.filter_eq_nil_iff.mpr
        intro a ha
        obtain ⟨y, hy, rfl⟩ := List.mem_map.mp ha
        exact hp
      rw [hnone]
      simpa using ih

/-- `twd_indeg` is the remaining-count of `twd_el` with nothing yet
emitted. -/
theorem twd_indeg_el (twd : List (Task × List Int)) (x : Int) :
    twd_indeg twd x = rem_count (twd_el twd) [] x := by
  unfold twd_indeg twd_el rem_count
  have h0 : (fun (e : Int × Int) => e.1 == x && !(decide (e.2 ∈ ([] : List Int)))) =
      (fun (e : Int × Int) => e.1 == x) := by
    funext e
    simp
  rw [h0]
  exact twd_bridge_indeg x (twd_mem twd) twd

/-- Both endpoints of every `twd_el` row are ids of supplied tasks. -/
theorem twd_el_endpoints (twd : List (Task × List Int)) :
    ∀ e ∈ twd_el twd,
      e.1 ∈ (twd.map (fun p => p.1)).map Task.id ∧
      e.2 ∈ (twd.map (fun p => p.1)).map Task.id := by
  intro e he
  unfold twd_el at he
  rw [List.mem_flatten] at he
  obtain ⟨l, hl, hel⟩ := he
  obtain ⟨p, hp, rfl⟩ := List.mem_map.mp hl
  obtain ⟨x, hx, rfl⟩ := List.mem_map.mp hel
  constructor
  · exact List.mem_map.mpr ⟨p.1, List.mem_map.mpr ⟨p, hp, rfl⟩, rfl⟩
  · have hmem := (List.mem_filter.mp hx).2
    unfold twd_mem at hmem
    rw [List.any_eq_true] at hmem
    obtain ⟨q, hq, hqx⟩ := hmem
    have hqid : q.1.id = x := by simpa using hqx
    exact List.mem_map.mpr ⟨q.1, List.mem_map.mpr ⟨q, hq, rfl⟩, hqid⟩

/-- The restricted dependency-edge list of a `(tasks, dependencies)`
input: the edge rows with both endpoints in the task set. -/
def edges_el (tasks : List Task) (dependencies : List (Int × Int)) : List (Int × Int) :=
  dependencies.filter (fun e => tasks_mem tasks e.1 && tasks_mem tasks e.2)

/-- `edges_adj` is the `EL`-derived adjacency for `edges_el`. -/
theorem edges_adj_el (tasks : List Task) (dependencies : List (Int × Int)) (d : Int) :
    edges_adj tasks dependencies d =
      ((edges_el tasks dependencies).filter (fun e => e.2 == d)).map (fun e => e.1) := by
  unfold edges_adj edges_el
  induction dependencies with
  | nil => rfl
  | cons e rest ih =>
    by_cases h1 : (e.2 == d) = true <;> by_cases h2 : tasks_mem tasks e.1 = true <;>
      by_cases h3 : tasks_mem tasks e.2 = true <;>
      simp [List.filter_cons, h1, h2, h3, ih]

/-- `edges_indeg` is the remaining-count of `edges_el` with nothing yet
emitted. -/
theorem edges_indeg_el (tasks : List Task) (dependencies : List (Int × Int)) (x : Int) :
    edges_indeg tasks dependencies x = rem_count (edges_el tasks dependencies) [] x := by
  unfold edges_indeg edges_el rem_count
  induction dependencies with
  | nil => rfl
  | cons e rest ih =>
    by_cases h1 : (e.1 == x) = true <;> by_cases h2 : tasks_mem tasks e.1 = true <;>
      by_cases h3 : tasks_mem tasks e.2 = true <;>
      simp [List.filter_cons, h1, h2, h3, ih]

/-- Both endpoints of every `edges_el` row are ids of supplied tasks. -/
theorem edges_el_endpoints (tasks : List Task) (dependencies : List (Int × Int)) :
    ∀ e ∈ edges_el tasks dependencies,
      e.1 ∈ tasks.map Task.id ∧ e.2 ∈ tasks.map Task.id := by
  intro e he
  have h := List.mem_filter.mp he
  have h2 := h.2
  rw [Bool.and_eq_true] at h2
  obtain ⟨h1, h2⟩ := h2
  unfold tasks_mem at h1 h2
  rw [List.any_eq_true] at h1 h2
  obtain ⟨t1, ht1, hte1⟩ := h1
  obtain ⟨t2, ht2, hte2⟩ := h2
  exact ⟨List.mem_map.mpr ⟨t1, ht1, by simpa using hte1⟩,
    List.mem_map.mpr ⟨t2, ht2, by simpa using hte2⟩⟩

/-- `heap_le`, spelled out: lexicographic `(manual_order, task_id)`. -/
theorem heap_le_iff (a b : HeapTask) :
    heap_le a b = true ↔
      a.manual_order < b.manual_order ∨
        (a.manual_order = b.manual_order ∧ a.task_id ≤ b.task_id) := by
  unfold heap_le
  simp

/-- `heap_le` is exactly non-losing under tt-kimi's reversed
`HeapTask::cmp` — the model's extract-min agrees with the comparator the
`BinaryHeap` is given. -/
theorem heap_le_eq_cmp (a b : HeapTask) :
    heap_le a b = true ↔ tt_kimi_HeapTask_cmp a b ≠ Ordering.lt := by
  unfold tt_kimi_HeapTask_cmp ord_compare
  rw [heap_le_iff]
  rcases lt_trichotomy a.manual_order b.manual_order with h | h | h
  · rw [if_neg (asymm h), if_neg (ne_of_gt h)]
    simp [h, Ordering.then]
  · rw [if_neg (by rw [h]; exact lt_irrefl _), if_pos h.symm]
    simp only [Ordering.then]
    constructor
    · intro hc
      rcases hc with hc | ⟨_, hc⟩
      · exact absurd hc (by rw [h]; exact lt_irrefl _)
      · rw [Ne, compare_lt_iff_lt]
        exact not_lt.mpr hc
    · intro hc
      rw [Ne, compare_lt_iff_lt, not_lt] at hc
      exact Or.inr ⟨h, hc⟩
  · rw [if_pos h]
    simp only [Ordering.then]
    constructor
    · intro hc
      rcases hc with hc | ⟨hc, _⟩
      · exact absurd hc (asymm h)
      · exact absurd hc (ne_of_gt h)
    · intro hc
      exact absurd rfl hc
  -- first branch detail: with `a.manual_order < b.manual_order` the
  -- comparator answers `gt`, never `lt`, and the left disjunct holds

/-- tt-kimi-dual `topological_sort` satisfies the claimed topological
order for every input with duplicate-free task ids: for every edge with
both endpoints in the set, wherever the dependent appears in the output,
its dependency has already appeared. -/
theorem tt_kimi_dual_sort_topo (tasks : List Task) (dependencies : List (Int × Int))
    (HN : (tasks.map Task.id).Nodup) :
    ∀ e ∈ edges_el tasks dependencies, ∀ pre t post,
      tt_kimi_dual_topological_sort tasks dependencies = pre ++ t :: post →
      t.id = e.1 → e.2 ∈ pre.map Task.id := by
  have hinv := kahn_run_inv tasks (edges_el tasks dependencies)
    (edges_adj tasks dependencies) (edges_indeg tasks dependencies) HN
    (edges_el_endpoints tasks dependencies)
    (edges_adj_el tasks dependencies) (edges_indeg_el tasks dependencies)
  intro e he pre t post hsp ht
  exact hinv.emitted_topo e he pre t post hsp ht

/-- tt-kimi's sort emits, at every position, a task whose
`(manual_order, task_id)` key is minimal among the tasks then eligible
(not yet emitted and no unemitted in-set dependency). -/
theorem tt_kimi_sort_min (twd : List (Task × List Int))
    (HN : ((twd.map (fun p => p.1)).map Task.id).Nodup) :
    ∀ pre t post, tt_kimi_graph_sort twd = pre ++ t :: post →
      ∀ u ∈ twd.map (fun p => p.1), u.id ∉ pre.map Task.id →
      rem_count (twd_el twd) (pre.map Task.id) u.id = 0 →
      heap_le { manual_order := t.manual_order, task_id := t.id }
        { manual_order := u.manual_order, task_id := u.id } = true := by
  have hinv := kahn_run_inv (twd.map (fun p => p.1)) (twd_el twd) (twd_adj twd)
    (twd_indeg twd) HN (twd_el_endpoints twd) (twd_adj_el twd) (twd_indeg_el twd)
  intro pre t post hsp u hu hnem hrem
  exact hinv.emitted_min pre t post hsp u hu hnem hrem

/-- On an acyclic restricted input with duplicate-free ids, tt-minimax's
`topological_sort` does not report a cycle: it returns `Ok` with a
permutation of the input ids — every input task exactly once. -/
theorem tt_minimax_sort_acyclic (twd : List (Task × List Int))
    (HN : ((twd.map (fun p => p.1)).map Task.id).Nodup)
    (HAcyc : ∀ e ∈ twd_el twd, ¬ Reaches (dep_succ (twd_el twd)) e.2 e.1) :
    ∃ out, tt_minimax_topological_sort twd = Except.ok out ∧
      out.Perm ((twd.map (fun p => p.1)).map Task.id) := by
  have hperm := kahn_run_perm (twd.map (fun p => p.1)) (twd_el twd) (twd_adj twd)
    (twd_indeg twd) HN (twd_el_endpoints twd) (twd_adj_el twd) (twd_indeg_el twd) HAcyc
  have hlen : (kahn_run (twd.map (fun p => p.1)) (twd_adj twd) (twd_indeg twd)).length
      = twd.length := by
    rw [hperm.length_eq]
    simp
  refine ⟨(kahn_run (twd.map (fun p => p.1)) (twd_adj twd) (twd_indeg twd)).map Task.id,
    ?_, ?_⟩
  · simp only [tt_minimax_topological_sort]
    rw [hlen]
    simp
  · exact hperm.map Task.id

/-- tt-minimax's sort reports `CycleDetected` exactly when the Kahn loop
emitted fewer tasks than supplied — the defensive check tt-kimi's
`topological_sort` (= `tt_kimi_graph_sort`, which runs the same loop)
lacks. -/
theorem tt_minimax_sort_err_iff (twd : List (Task × List Int)) :
    tt_minimax_topological_sort twd = Except.error TaskError.cycleDetected ↔
      (tt_kimi_graph_sort twd).length ≠ twd.length := by
  simp only [tt_minimax_topological_sort, tt_kimi_graph_sort]
  by_cases h :
      (kahn_run (twd.map (fun p => p.1)) (twd_adj twd) (twd_indeg twd)).length = twd.length
  · simp [h]
  · simp [h]

/-- C2 (code bug in tt-glm): with tasks 1 and 2 where task 1 depends on
task 2 (edge `(1, 2)`, both endpoints in the set), tt-glm's
`topological_sort` — which takes no edges at all and ignores the
dependency relation — emits `[1, 2]`, placing the dependency *after* its
dependent; tt-kimi-dual's `topological_sort` on the same input emits
`[2, 1]` as the claim requires, and in general (second conjunct) the
tt-kimi-dual output places, for every edge with both endpoints in the
supplied set, the dependency strictly before the dependent, for every
input whose task ids are duplicate-free. -/
theorem C2_topological_order_glm_bug :
    (tt_glm_topological_sort
        [wtask 1 10 Status.pending, wtask 2 20 Status.pending] =
      [wtask 1 10 Status.pending, wtask 2 20 Status.pending] ∧
    tt_kimi_dual_topological_sort
        [wtask 1 10 Status.pending, wtask 2 20 Status.pending] [(1, 2)] =
      [wtask 2 20 Status.pending, wtask 1 10 Status.pending]) ∧
    (∀ (tasks : List Task) (dependencies : List (Int × Int)),
      (tasks.map Task.id).Nodup →
      ∀ e ∈ edges_el tasks dependencies, ∀ pre t post,
        tt_kimi_dual_topological_sort tasks dependencies = pre ++ t :: post →
        t.id = e.1 → e.2 ∈ pre.map Task.id) :=
  ⟨by decide, fun tasks dependencies HN => tt_kimi_dual_sort_topo tasks dependencies HN⟩

/-- Witness for C2's general conjunct at the concrete two-task instance:
the hypotheses are satisfiable and the conclusion holds there. -/
theorem C2_topological_order_glm_bug_witness :
    ((1 : Int), (2 : Int)).2 ∈ [wtask 2 20 Status.pending].map Task.id :=
  C2_topological_order_glm_bug.2
    [wtask 1 10 Status.pending, wtask 2 20 Status.pending] [(1, 2)]
    (by decide) (1, 2) (by decide)
    [wtask 2 20 Status.pending] (wtask 1 10 Status.pending) []
    (by decide) rfl

/-- C3 (code bug in tt-glm): tt-glm's `OrderedTask::cmp` compares two
tasks with equal `manual_order` and distinct ids as `Equal`, so its heap
has no id tiebreak and cannot guarantee that the lower id is emitted
first; tt-kimi's `HeapTask::cmp` does order the same keys by id (the
lower id is the greater, i.e. higher-priority, heap element), and in
general (second conjunct) every task tt-kimi's sort emits has a
`(manual_order, id)` key lexicographically minimal among the tasks then
eligible: any not-yet-emitted task `u` with no unemitted in-set
dependency has a strictly larger `manual_order`, or the same
`manual_order` and an id no smaller. -/
theorem C3_tiebreak_glm_bug :
    (tt_glm_OrderedTask_cmp (wtask 1 10 Status.pending) (wtask 3 10 Status.pending) =
      Ordering.eq ∧
    tt_kimi_HeapTask_cmp { manual_order := 10, task_id := 1 }
        { manual_order := 10, task_id := 3 } = Ordering.gt ∧
    tt_kimi_HeapTask_cmp { manual_order := 10, task_id := 3 }
        { manual_order := 10, task_id := 1 } = Ordering.lt) ∧
    (∀ twd : List (Task × List Int),
      ((twd.map (fun p => p.1)).map Task.id).Nodup →
      ∀ pre t post, tt_kimi_graph_sort twd = pre ++ t :: post →
      ∀ u ∈ twd.map (fun p => p.1), u.id ∉ pre.map Task.id →
      rem_count (twd_el twd) (pre.map Task.id) u.id = 0 →
      t.manual_order < u.manual_order ∨
        (t.manual_order = u.manual_order ∧ t.id ≤ u.id)) :=
  ⟨by decide, fun twd HN pre t post hsp u hu hnem hrem =>
    (heap_le_iff { manual_order := t.manual_order, task_id := t.id }
        { manual_order := u.manual_order, task_id := u.id }).mp
      (tt_kimi_sort_min twd HN pre t post hsp u hu hnem hrem)⟩

/-- Witness for C3's general conjunct: two independent tasks with equal
`manual_order 10` and ids 2 and 1, supplied in that order; the sort
emits id 1 first, and the minimality conclusion holds against the
still-eligible task 2. -/
theorem C3_tiebreak_glm_bug_witness :
    (wtask 1 10 Status.pending).manual_order <
        (wtask 2 10 Status.pending).manual_order ∨
      ((wtask 1 10 Status.pending).manual_order =
          (wtask 2 10 Status.pending).manual_order ∧
        (wtask 1 10 Status.pending).id ≤ (wtask 2 10 Status.pending).id) :=
  C3_tiebreak_glm_bug.2
    [(wtask 2 10 Status.pending, []), (wtask 1 10 Status.pending, [])]
    (by decide) [] (wtask 1 10 Status.pending) [wtask 2 10 Status.pending]
    (by decide) (wtask 2 10 Status.pending) (by decide) (by decide) (by decide)

/-- C8 (code bug in tt-kimi): on the two-task cycle `1 ⇄ 2` (restricted
in-degrees stay positive, nothing is emitted) tt-kimi's
`topological_sort` silently returns `Ok` with an empty list — shorter
than the input — while tt-minimax's returns `CycleDetected`; in general
(second conjunct) tt-minimax reports `CycleDetected` exactly when the
shared Kahn loop (tt-kimi's `tt_kimi_graph_sort`, which lacks the check)
emitted fewer tasks than supplied, and (third conjunct) on every acyclic
restricted input with duplicate-free ids it returns `Ok` with a
permutation of the input ids — every input task exactly once. -/
theorem C8_cycle_check_kimi_bug :
    (tt_kimi_topological_sort
        [(wtask 1 10 Status.pending, [2]), (wtask 2 20 Status.pending, [1])] =
      Except.ok [] ∧
    tt_minimax_topological_sort
        [(wtask 1 10 Status.pending, [2]), (wtask 2 20 Status.pending, [1])] =
      Except.error TaskError.cycleDetected ∧
    tt_minimax_topological_sort
        [(wtask 1 10 Status.pending, []), (wtask 2 20 Status.pending, [1]),
         (wtask 3 30 Status.pending, [2])] =
      Except.ok [1, 2, 3]) ∧
    (∀ twd : List (Task × List Int),
      tt_minimax_topological_sort twd = Except.error TaskError.cycleDetected ↔
        (tt_kimi_graph_sort twd).length ≠ twd.length) ∧
    (∀ twd : List (Task × List Int),
      ((twd.map (fun p => p.1)).map Task.id).Nodup →
      (∀ e ∈ twd_el twd, ¬ Reaches (dep_succ (twd_el twd)) e.2 e.1) →
      ∃ out, tt_minimax_topological_sort twd = Except.ok out ∧
        out.Perm ((twd.map (fun p => p.1)).map Task.id)) :=
  ⟨⟨rfl, rfl, rfl⟩, tt_minimax_sort_err_iff,
    fun twd HN HAcyc => tt_minimax_sort_acyclic twd HN HAcyc⟩

/-- Witness for C8's acyclicity conjunct at a concrete dependency-free
input: the hypotheses are satisfiable and tt-minimax returns `Ok` with a
permutation of the input ids. -/
theorem C8_cycle_check_kimi_bug_witness :
    ∃ out, tt_minimax_topological_sort
        [(wtask 1 10 Status.pending, ([] : List Int)),
         (wtask 2 20 Status.pending, ([] : List Int))] =
      Except.ok out ∧
      out.Perm (([(wtask 1 10 Status.pending, ([] : List Int)),
        (wtask 2 20 Status.pending, ([] : List Int))].map (fun p => p.1)).map Task.id) :=
  C8_cycle_check_kimi_bug.2.2
    [(wtask 1 10 Status.pending, []), (wtask 2 20 Status.pending, [])]
    (by decide) (by simp [twd_el])

end TT
